import Mathlib

/-!
# Shallow embedding of the `darray` dynamic-array library

This file embeds the C sources of the `darray` repository (darray.c together
with its header: `struct _darray`, the capacity macros, and the statement-
expression macros `_da_push`, `_da_pop`, `_da_insert`, `_da_remove`) as Lean
definitions, and proves the specification claims about them.

Modelling conventions:

* A darray instance is a `Darray α`: the header fields `_elemsz`, `_length`,
  `_capacity`, `_mem_funcs` plus the element buffer `_data` as a total
  function `Nat → α` (C reads outside the allocated block are undefined
  behaviour; theorems only inspect indices the C code may legally read).
* The bound allocation-strategy triple (`struct da_mem_funcs`) is opaque to
  the library apart from being stored and replayed, so it is modelled as an
  abstract tag `_mem_funcs : Nat`.
* Allocation success is decided by the external allocator, so every operation
  that may call `alloc_f`/`realloc_f` takes an oracle `ok : Bool` (the result
  of that call) and a `junk : Nat → α` describing the indeterminate contents
  of freshly allocated element slots.
* `size_t` values are modelled as `Nat`; C subtractions that the library
  performs only under its documented preconditions map to truncated `Nat`
  subtraction, and the preconditions appear as hypotheses or guards.
* Fallible relocating operations return `Except (Darray α) (Darray α)`:
  `.error d` is the C `NULL` return, carrying the state `d` in which the
  failed call leaves the caller's original block, `.ok d` is a returned
  handle.
-/

namespace DarrayModel

/-- Header plus element buffer of one darray instance
(`struct _darray { size_t _elemsz, _length, _capacity;
struct da_mem_funcs _mem_funcs; char _data[]; }`). -/
structure Darray (α : Type) where
  elemsz : Nat
  length : Nat
  capacity : Nat
  memFuncs : Nat
  data : Nat → α

/-- `DA_CAPACITY_MIN` (= 10). -/
def DA_CAPACITY_MIN : Nat := 10

/-- Exact value of the IEEE-754 double literal `1.3` (`DA_CAPACITY_FACTOR`)
as a numerator over `2 ^ 52`:  `(double)1.3 = 5854679515581645 / 2 ^ 52`. -/
def DA_CAPACITY_FACTOR_NUM : Nat := 5854679515581645

/-- Fuelled halving count: `bl fuel n` is the number of halvings needed to
take `n` to zero — the binary length of `n` — computed with structural
fuel (exact whenever `n < 2 ^ fuel`). -/
def bl : Nat → Nat → Nat
  | 0, _ => 0
  | fuel + 1, n => if n = 0 then 0 else bl fuel (n / 2) + 1

/-- Binary length of `n`.  Fuel 200 makes it exact for every `n < 2 ^ 200`;
the values rounded in this file are at most a 64-bit `size_t` times the
53-bit significand of `1.3`, far below `2 ^ 200`. -/
def bitLen (n : Nat) : Nat := bl 200 n

/-- IEEE-754 binary64 rounding of a positive integer significand to 53
bits: round to nearest, ties to even.  Rounding is scale-invariant, so
applying this to the numerator of `a / 2 ^ k` rounds that value to the
nearest double (no overflow/subnormal handling is needed in the range this
file uses it). -/
def roundDouble52 (a : Nat) : Nat :=
  if a < 2 ^ 53 then a
  else
    let s := bitLen a - 53
    let m0 := a / 2 ^ s
    let r := a % 2 ^ s
    let half := 2 ^ (s - 1)
    let m :=
      if half < r then m0 + 1
      else if r < half then m0
      else if m0 % 2 = 0 then m0 else m0 + 1
    m * 2 ^ s

/-- `DA_NEW_CAPACITY_FROM_LENGTH(length)`:
`(length) < DA_CAPACITY_MIN ? DA_CAPACITY_MIN : (length)*DA_CAPACITY_FACTOR`.
The C expression converts `length` to `double` (rounding it to 53
significant bits), multiplies by the double `1.3` — whose exact value is
`5854679515581645 / 2 ^ 52` — with the product rounded to the nearest
double (ties to even), and the surrounding assignments truncate the result
back to `size_t`.  The model mirrors each step: round `length`, multiply
by the exact significand, round the product to 53 bits, take the floor of
the resulting numerator over `2 ^ 52`. -/
def DA_NEW_CAPACITY_FROM_LENGTH (length : Nat) : Nat :=
  if length < DA_CAPACITY_MIN then DA_CAPACITY_MIN
  else roundDouble52 (roundDouble52 length * DA_CAPACITY_FACTOR_NUM) / 2 ^ 52

/-- Tag for `DA_DEFAULT_MEM_FUNCS` (`{malloc, realloc, free}`). -/
def DA_DEFAULT_MEM_FUNCS : Nat := 0

/-- Model of a call to the instance's stored `realloc_f` with a block large
enough for `newCap` elements: `ok` reports whether the underlying allocator
succeeded.  On success the header and the first `min old-capacity newCap`
element slots are preserved and any remaining slots hold indeterminate
contents (`junk`); on failure the original block is untouched (standard
`realloc` contract, which the stored functions must follow). -/
def realloc_f (ok : Bool) (junk : Nat → α) (d : Darray α) (newCap : Nat) :
    Option (Darray α) :=
  if ok then
    some { d with data := fun i =>
      if i < Nat.min d.capacity newCap then d.data i else junk i }
  else none

/-- `da_alloc_custom(mem_funcs, nelem, size)`. -/
def da_alloc_custom (ok : Bool) (junk : Nat → α) (mem_funcs : Nat)
    (nelem size : Nat) : Option (Darray α) :=
  let capacity := DA_NEW_CAPACITY_FROM_LENGTH nelem
  if ok then
    some { memFuncs := mem_funcs, elemsz := size, length := nelem,
           capacity := capacity, data := junk }
  else none

/-- `da_alloc(nelem, size)` (allocates with `DA_DEFAULT_MEM_FUNCS`). -/
def da_alloc (ok : Bool) (junk : Nat → α) (nelem size : Nat) :
    Option (Darray α) :=
  da_alloc_custom ok junk DA_DEFAULT_MEM_FUNCS nelem size

/-- `da_alloc_exact_custom(mem_funcs, nelem, size)`. -/
def da_alloc_exact_custom (ok : Bool) (junk : Nat → α) (mem_funcs : Nat)
    (nelem size : Nat) : Option (Darray α) :=
  if ok then
    some { memFuncs := mem_funcs, elemsz := size, length := nelem,
           capacity := nelem, data := junk }
  else none

/-- `da_alloc_exact(nelem, size)`. -/
def da_alloc_exact (ok : Bool) (junk : Nat → α) (nelem size : Nat) :
    Option (Darray α) :=
  da_alloc_exact_custom ok junk DA_DEFAULT_MEM_FUNCS nelem size

/-- `da_length(darr)`. -/
def da_length (d : Darray α) : Nat := d.length

/-- `da_capacity(darr)`. -/
def da_capacity (d : Darray α) : Nat := d.capacity

/-- `da_sizeof_elem(darr)`. -/
def da_sizeof_elem (d : Darray α) : Nat := d.elemsz

/-- `da_resize(darr, nelem)`. -/
def da_resize (ok : Bool) (junk : Nat → α) (darr : Darray α) (nelem : Nat) :
    Except (Darray α) (Darray α) :=
  let new_capacity := DA_NEW_CAPACITY_FROM_LENGTH nelem
  match realloc_f ok junk darr new_capacity with
  | none => .error darr
  | some ptr => .ok { ptr with length := nelem, capacity := new_capacity }

/-- `da_resize_exact(darr, nelem)`. -/
def da_resize_exact (ok : Bool) (junk : Nat → α) (darr : Darray α)
    (nelem : Nat) : Except (Darray α) (Darray α) :=
  match realloc_f ok junk darr nelem with
  | none => .error darr
  | some ptr => .ok { ptr with length := nelem, capacity := nelem }

/-- `da_reserve(darr, nelem)`. -/
def da_reserve (ok : Bool) (junk : Nat → α) (darr : Darray α) (nelem : Nat) :
    Except (Darray α) (Darray α) :=
  let min_capacity := da_length darr + nelem
  if da_capacity darr ≥ min_capacity then .ok darr
  else
    let new_capacity := DA_NEW_CAPACITY_FROM_LENGTH min_capacity
    match realloc_f ok junk darr new_capacity with
    | none => .error darr
    | some ptr => .ok { ptr with capacity := new_capacity }

/-- `da_insert_arr(darr, index, src, nelem)`: reserve `nelem` slots, then
`memmove` the tail `[index, length)` up by `nelem` slots and `memcpy` the
`nelem` source elements into the gap, finally `length += nelem`.  The C
source pointer is modelled as `src : Nat → α` read at offsets
`0, …, nelem-1`. -/
def da_insert_arr (ok : Bool) (junk : Nat → α) (darr : Darray α)
    (index : Nat) (src : Nat → α) (nelem : Nat) :
    Except (Darray α) (Darray α) :=
  match da_reserve ok junk darr nelem with
  | .error d => .error d
  | .ok d =>
    let moved : Nat → α := fun i =>
      if index + nelem ≤ i ∧ i < d.length + nelem then d.data (i - nelem)
      else d.data i
    let copied : Nat → α := fun i =>
      if index ≤ i ∧ i < index + nelem then src (i - index) else moved i
    .ok { d with data := copied, length := d.length + nelem }

/-- `da_remove_arr(darr, index, nelem)`: `memmove` the `length-index-nelem`
tail elements down over the removed range, then `length -= nelem`. -/
def da_remove_arr (darr : Darray α) (index nelem : Nat) : Darray α :=
  let moved : Nat → α := fun i =>
    if index ≤ i ∧ i < index + (darr.length - index - nelem) then
      darr.data (i + nelem)
    else darr.data i
  { darr with data := moved, length := darr.length - nelem }

/-- `da_concat(dest, src, nelem)`: the destination offset is computed from
`da_length(dest)` before the reserve, then the `nelem` source elements are
copied there and `length += nelem`. -/
def da_concat (ok : Bool) (junk : Nat → α) (dest : Darray α)
    (src : Nat → α) (nelem : Nat) : Except (Darray α) (Darray α) :=
  let offset := da_length dest
  match da_reserve ok junk dest nelem with
  | .error d => .error d
  | .ok d =>
    .ok { d with
      data := fun i =>
        if offset ≤ i ∧ i < offset + nelem then src (i - offset)
        else d.data i,
      length := d.length + nelem }

/-- `_da_push(darr, value)` (header macro, handle-returning version):
when `length == capacity` it reserves one slot first and yields `NULL` on
reallocation failure; otherwise it stores `value` at index `length` and
increments `length`. -/
def _da_push (ok : Bool) (junk : Nat → α) (darr : Darray α) (value : α) :
    Option (Darray α) :=
  if darr.length = darr.capacity then
    match da_reserve ok junk darr 1 with
    | .error _ => none
    | .ok d =>
      some { d with
        data := fun i => if i = d.length then value else d.data i,
        length := d.length + 1 }
  else
    some { darr with
      data := fun i => if i = darr.length then value else darr.data i,
      length := darr.length + 1 }

/-- `_da_pop(darr)`: `(_darr)[--(*DA_P_LENGTH_FROM_HANDLE(_darr))]` —
decrements `length` and reads the element at the new `length`.  Returns the
popped value together with the mutated instance. -/
def _da_pop (darr : Darray α) : α × Darray α :=
  (darr.data (darr.length - 1), { darr with length := darr.length - 1 })

/-- `_da_insert(darr, index, value)` (header macro): when
`length == capacity` it reserves one slot first (yielding `NULL` on
reallocation failure); then `_da_move_and_insert` shifts `[index, length)`
up one slot, stores `value` at `index` and increments `length`. -/
def _da_insert (ok : Bool) (junk : Nat → α) (darr : Darray α) (index : Nat)
    (value : α) : Option (Darray α) :=
  let ins : Darray α → Darray α := fun d =>
    let moved : Nat → α := fun i =>
      if index + 1 ≤ i ∧ i < d.length + 1 then d.data (i - 1) else d.data i
    { d with
      data := fun i => if i = index then value else moved i,
      length := d.length + 1 }
  if darr.length = darr.capacity then
    match da_reserve ok junk darr 1 with
    | .error _ => none
    | .ok d => some (ins d)
  else some (ins darr)

/-- `_da_remove(darr, index)` (header macro): reads the removed value, shifts
`[index+1, length)` down one slot and decrements `length`.  Returns the
removed value together with the mutated instance. -/
def _da_remove (darr : Darray α) (index : Nat) : α × Darray α :=
  let moved : Nat → α := fun i =>
    if index ≤ i ∧ i < index + (darr.length - index - 1) then
      darr.data (i + 1)
    else darr.data i
  (darr.data index, { darr with data := moved, length := darr.length - 1 })

/-! ## Dstring layer

Dstrings are darrays of bytes (`Darray Nat`, element size 1).  A C string
argument (`const char*`) is modelled as the list of its bytes before the
terminator (all nonzero by definition of a C string); `strlen` of such an
argument is the list length.  The bytes the instance currently tracks are
`trackedBytes`; the C-string view that `strstr`/`strcasestr` scan is the
prefix of those bytes before the first zero byte (`cstrOf`). -/

/-- The `length` bytes the instance currently tracks. -/
def trackedBytes (d : Darray Nat) : List Nat :=
  (List.range d.length).map d.data

/-- The instance's contents as read by a C string function: the tracked
bytes before the first zero byte. -/
def cstrOf (d : Darray Nat) : List Nat :=
  (trackedBytes d).takeWhile (fun b => b != 0)

/-- Read a C string (modelled as its byte list) through a `const char*`:
offset `j` holds the `j`-th byte, and offset `length` the terminator. -/
def cstrFn (s : List Nat) : Nat → Nat := fun j => s.getD j 0

/-- `strstr` as an index: the first position of `hay` at which `needle`
occurs, `none` when there is no occurrence. -/
def strstrIdx (hay needle : List Nat) : Option Nat :=
  (List.range (hay.length + 1)).find?
    (fun i => (hay.drop i).take needle.length == needle)

/-- ASCII `tolower`. -/
def tolowerByte (c : Nat) : Nat := if 65 ≤ c ∧ c ≤ 90 then c + 32 else c

/-- ASCII `isspace`. -/
def isspaceByte (c : Nat) : Bool :=
  c == 32 || c == 9 || c == 10 || c == 11 || c == 12 || c == 13

/-- `dstr_length(dstr)`: `da_length(dstr) - 1`. -/
def dstr_length (d : Darray Nat) : Nat := da_length d - 1

/-- `dstr_find(dstr, substr)`: `strstr` offset, or `-1` when absent. -/
def dstr_find (d : Darray Nat) (substr : List Nat) : Int :=
  match strstrIdx (cstrOf d) substr with
  | none => -1
  | some loc => loc

/-- Loop of `_da_strcasestr`: `start` is the index the candidate match
currently begins at, `hrest` the haystack from the compare position `currh`
(`currh = start + (needle.length - nrest.length)`), `nrest` the needle from
`currn`.  On a mismatch the candidate start advances to `currh + 1` and the
needle pointer rewinds (the scan does not back up below `currh + 1`). -/
def _da_strcasestr_loop (needle : List Nat) :
    Nat → List Nat → List Nat → Option Nat
  | start, _, [] => some start
  | start, hrest, n0 :: nt =>
    match hrest with
    | [] => none
    | h0 :: htail =>
      if tolowerByte h0 ≠ tolowerByte n0 then
        _da_strcasestr_loop needle
          (start + (needle.length - (n0 :: nt).length) + 1) htail needle
      else
        _da_strcasestr_loop needle start htail nt

/-- `_da_strcasestr(haystack, needle)` as an index. -/
def _da_strcasestr (hay needle : List Nat) : Option Nat :=
  _da_strcasestr_loop needle 0 hay needle

/-- `dstr_find_case(dstr, substr)`. -/
def dstr_find_case (d : Darray Nat) (substr : List Nat) : Int :=
  match _da_strcasestr (cstrOf d) substr with
  | none => -1
  | some loc => loc

/-- `dstr_alloc_empty()`: a one-byte darray holding just the terminator. -/
def dstr_alloc_empty (ok : Bool) (junk : Nat → Nat) : Option (Darray Nat) :=
  match da_alloc ok junk 1 1 with
  | none => none
  | some d => some { d with data := fun i => if i = 0 then 0 else d.data i }

/-- `dstr_alloc_cstr(src)`: copies `strlen(src)+1` bytes from `src`. -/
def dstr_alloc_cstr (ok : Bool) (junk : Nat → Nat) (src : List Nat) :
    Option (Darray Nat) :=
  match da_alloc ok junk (src.length + 1) 1 with
  | none => none
  | some d =>
    some { d with data := fun i =>
      if i < src.length + 1 then cstrFn src i else d.data i }

/-- `dstr_alloc_dstr(src)`: copies `da_length(src)` bytes from `src`. -/
def dstr_alloc_dstr (ok : Bool) (junk : Nat → Nat) (src : Darray Nat) :
    Option (Darray Nat) :=
  match da_alloc ok junk (da_length src) 1 with
  | none => none
  | some d =>
    some { d with data := fun i =>
      if i < da_length src then src.data i else d.data i }

/-- `dstr_reassign_empty(allocated_dstr)`: zero the length, then
`da_concat` the one-byte string `""` (its terminator). -/
def dstr_reassign_empty (ok : Bool) (junk : Nat → Nat) (d : Darray Nat) :
    Option (Darray Nat) :=
  let d0 : Darray Nat := { d with length := 0 }
  match da_concat ok junk d0 (cstrFn []) 1 with
  | .error _ => none
  | .ok d1 => some d1

/-- `dstr_reassign_cstr(allocated_dstr, src)`: zero the length, then
`da_concat` the `strlen(src)+1` bytes of `src`. -/
def dstr_reassign_cstr (ok : Bool) (junk : Nat → Nat) (d : Darray Nat)
    (src : List Nat) : Option (Darray Nat) :=
  let d0 : Darray Nat := { d with length := 0 }
  match da_concat ok junk d0 (cstrFn src) (src.length + 1) with
  | .error _ => none
  | .ok d1 => some d1

/-- `dstr_reassign_dstr(allocated_dstr, src)`: zero the length, then
`da_concat` the `da_length(src)` bytes of `src`. -/
def dstr_reassign_dstr (ok : Bool) (junk : Nat → Nat) (d : Darray Nat)
    (src : Darray Nat) : Option (Darray Nat) :=
  let d0 : Darray Nat := { d with length := 0 }
  match da_concat ok junk d0 src.data (da_length src) with
  | .error _ => none
  | .ok d1 => some d1

/-- `dstr_reassign_format(allocated_dstr, format, ...)`: the
`vsnprintf`/`vsprintf` collaborator is opaque, so its rendered output is
the parameter `rendered`; `size = rendered.length + 1`.  The length is
zeroed, `size` bytes are reserved, the rendered text plus terminator is
written at offset 0 and the length set to `size`. -/
def dstr_reassign_format (ok : Bool) (junk : Nat → Nat) (d : Darray Nat)
    (rendered : List Nat) : Option (Darray Nat) :=
  let size := rendered.length + 1
  let d0 : Darray Nat := { d with length := 0 }
  match da_reserve ok junk d0 size with
  | .error _ => none
  | .ok d1 =>
    some { d1 with
      data := fun i => if i < size then cstrFn rendered i else d1.data i,
      length := size }

/-- `dstr_concat_char(dest, c)`: `da_insert(dest, da_length(dest)-1, c)`. -/
def dstr_concat_char (ok : Bool) (junk : Nat → Nat) (dest : Darray Nat)
    (c : Nat) : Option (Darray Nat) :=
  _da_insert ok junk dest (da_length dest - 1) c

/-- `dstr_concat_cstr(dest, src)`: reserve `strlen(src)` bytes, `memcpy`
the `strlen(src)+1` bytes of `src` (text plus terminator) to offset
`dstr_length(dest)`, and add `strlen(src)` to the length. -/
def dstr_concat_cstr (ok : Bool) (junk : Nat → Nat) (dest : Darray Nat)
    (src : List Nat) : Option (Darray Nat) :=
  let dest_strlen := dstr_length dest
  let src_strlen := src.length
  match da_reserve ok junk dest src_strlen with
  | .error _ => none
  | .ok d =>
    some { d with
      data := fun i =>
        if dest_strlen ≤ i ∧ i < dest_strlen + src_strlen + 1 then
          cstrFn src (i - dest_strlen)
        else d.data i,
      length := d.length + src_strlen }

/-- `dstr_concat_dstr(dest, src)`: like `dstr_concat_cstr` but the length
of `src` is `dstr_length(src)` and the copied bytes are read from the
`src` instance's buffer. -/
def dstr_concat_dstr (ok : Bool) (junk : Nat → Nat) (dest : Darray Nat)
    (src : Darray Nat) : Option (Darray Nat) :=
  let dest_strlen := dstr_length dest
  let src_strlen := dstr_length src
  match da_reserve ok junk dest src_strlen with
  | .error _ => none
  | .ok d =>
    some { d with
      data := fun i =>
        if dest_strlen ≤ i ∧ i < dest_strlen + src_strlen + 1 then
          src.data (i - dest_strlen)
        else d.data i,
      length := d.length + src_strlen }

/-- `dstr_concat_format(dest, format, ...)`: rendered output of the opaque
formatting collaborator passed as `rendered`
(`formatted_strlen = rendered.length`). -/
def dstr_concat_format (ok : Bool) (junk : Nat → Nat) (dest : Darray Nat)
    (rendered : List Nat) : Option (Darray Nat) :=
  let dest_strlen := dstr_length dest
  let formatted_strlen := rendered.length
  match da_reserve ok junk dest formatted_strlen with
  | .error _ => none
  | .ok d =>
    some { d with
      data := fun i =>
        if dest_strlen ≤ i ∧ i < dest_strlen + formatted_strlen + 1 then
          cstrFn rendered (i - dest_strlen)
        else d.data i,
      length := d.length + formatted_strlen }

/-- Loop of `dstr_replace_all`: `while ((loc = dstr_find(dstr, substr)) !=
-1) { da_remove_arr(dstr, loc, substr_len); dstr =
da_insert_arr(dstr, loc, new_str, new_str_len); }`.  The C loop is
unbounded, so the model takes fuel; `none` means the loop has not finished
within `fuel` iterations, `some none` is the C `NULL` return on insert
failure, `some (some d)` a returned handle. -/
def dstrReplaceAllLoop (ok : Bool) (junk : Nat → Nat)
    (substr new_str : List Nat) : Nat → Darray Nat → Option (Option (Darray Nat))
  | 0, _ => none
  | fuel + 1, d =>
    match strstrIdx (cstrOf d) substr with
    | none => some (some d)
    | some loc =>
      let d1 := da_remove_arr d loc substr.length
      match da_insert_arr ok junk d1 loc (cstrFn new_str) new_str.length with
      | .error _ => some none
      | .ok d2 => dstrReplaceAllLoop ok junk substr new_str fuel d2

/-- `dstr_replace_all(dstr, substr, new_str)` (with fuel, see
`dstrReplaceAllLoop`). -/
def dstr_replace_all (ok : Bool) (junk : Nat → Nat) (fuel : Nat)
    (dstr : Darray Nat) (substr new_str : List Nat) :
    Option (Option (Darray Nat)) :=
  dstrReplaceAllLoop ok junk substr new_str fuel dstr

/-- Loop of `dstr_replace_all_case`: as `dstrReplaceAllLoop` but locating
occurrences with `dstr_find_case` (`_da_strcasestr`). -/
def dstrReplaceAllCaseLoop (ok : Bool) (junk : Nat → Nat)
    (substr new_str : List Nat) : Nat → Darray Nat → Option (Option (Darray Nat))
  | 0, _ => none
  | fuel + 1, d =>
    match _da_strcasestr (cstrOf d) substr with
    | none => some (some d)
    | some loc =>
      let d1 := da_remove_arr d loc substr.length
      match da_insert_arr ok junk d1 loc (cstrFn new_str) new_str.length with
      | .error _ => some none
      | .ok d2 => dstrReplaceAllCaseLoop ok junk substr new_str fuel d2

/-- `dstr_replace_all_case(dstr, substr, new_str)` (with fuel). -/
def dstr_replace_all_case (ok : Bool) (junk : Nat → Nat) (fuel : Nat)
    (dstr : Darray Nat) (substr new_str : List Nat) :
    Option (Option (Darray Nat)) :=
  dstrReplaceAllCaseLoop ok junk substr new_str fuel dstr

/-- Loop of `dstr_getdelim`: `fgetc` pulls the head byte of `stream`, or
`EOF` (`-1`) when the stream is exhausted.  `while ((c = fgetc(stream)) !=
delim) { if (delim != EOF && c == EOF) return NULL; append c; }`.  Returns
the instance and the unread rest of the stream, `none` for the C `NULL`. -/
def getdelimLoop (ok : Bool) (junk : Nat → Nat) (delim : Int) :
    Darray Nat → List Nat → Option (Darray Nat × List Nat)
  | d, [] => if delim = -1 then some (d, []) else none
  | d, b :: rest =>
    if (b : Int) = delim then some (d, rest)
    else
      match dstr_concat_char ok junk d b with
      | none => none
      | some d2 => getdelimLoop ok junk delim d2 rest

/-- `dstr_getdelim(allocated_dstr, delim, stream)`. -/
def dstr_getdelim (ok : Bool) (junk : Nat → Nat) (d : Darray Nat)
    (delim : Int) (stream : List Nat) : Option (Darray Nat × List Nat) :=
  match dstr_reassign_empty ok junk d with
  | none => none
  | some d0 => getdelimLoop ok junk delim d0 stream

/-- `dstr_getline(allocated_dstr, stream)`:
`dstr_getdelim(allocated_dstr, '\n', stream)`. -/
def dstr_getline (ok : Bool) (junk : Nat → Nat) (d : Darray Nat)
    (stream : List Nat) : Option (Darray Nat × List Nat) :=
  dstr_getdelim ok junk d 10 stream

/-- `dstr_trim(dstr)`: count leading whitespace bytes and bulk-remove them,
then scan down from the last text byte counting trailing whitespace and
bulk-remove that run.  The C scans are raw pointer walks; the model yields
`none` exactly when a scan would read outside the tracked bytes (below
index 0, or past `length`), which is undefined behaviour in the source. -/
def dstr_trim (d : Darray Nat) : Option (Darray Nat) :=
  let lead := ((trackedBytes d).takeWhile isspaceByte).length
  if lead = d.length then none
  else
    let d1 := da_remove_arr d 0 lead
    if dstr_length d1 = 0 then none
    else
      let trail :=
        ((((List.range (dstr_length d1)).map d1.data).reverse).takeWhile
          isspaceByte).length
      if trail = dstr_length d1 then none
      else some (da_remove_arr d1 (dstr_length d1 - trail) trail)

/-- A dstring instance holding the text `s` with the stated capacity:
tracked bytes are `s` followed by the terminator. -/
def ofText (s : List Nat) (cap : Nat) : Darray Nat :=
  { elemsz := 1, length := s.length + 1, capacity := cap,
    memFuncs := DA_DEFAULT_MEM_FUNCS, data := cstrFn s }

/-- Modelled from the spec (the code under test is compared against this):
"after each replacement, scanning resumes from the position immediately
following the inserted replacement (not from the start)".  Pure rewriting
on the byte list: find the first occurrence at or after `pos`, splice in
the replacement, continue from just past it. -/
def replaceAllResume (substr new_str : List Nat) :
    Nat → List Nat → Nat → Option (List Nat)
  | 0, _, _ => none
  | fuel + 1, s, pos =>
    match (strstrIdx (s.drop pos) substr).map (pos + ·) with
    | none => some s
    | some loc =>
      replaceAllResume substr new_str fuel
        (s.take loc ++ new_str ++ s.drop (loc + substr.length))
        (loc + new_str.length)

example :
    (dstr_replace_all true (fun _ => 0) 10 (ofText [97, 97, 98] 10)
        [97, 98] [98]).map (Option.map trackedBytes) =
      some (some [98, 0]) := by decide

example :
    replaceAllResume [97, 98] [98] 10 [97, 97, 98] 0 = some [97, 98] := by
  decide

/-! ## Invariants and operation sequences -/

/-- The structural invariant of every live instance:
`capacity ≥ length`. -/
def Valid (d : Darray α) : Prop := d.length ≤ d.capacity

instance (d : Darray α) : Decidable (Valid d) := Nat.decLe _ _

/-- The dstring terminator invariant: the tracked length counts at least the
terminator byte, and the last tracked byte is zero. -/
def TermInv (d : Darray Nat) : Prop :=
  1 ≤ d.length ∧ d.data (d.length - 1) = 0

instance (d : Darray Nat) : Decidable (TermInv d) := instDecidableAnd

/-- `Except` result as an optional success value (`NULL`-checking a returned
handle). -/
def exceptToOption : Except ε β → Option β
  | .ok b => some b
  | .error _ => none

theorem bl_zero : ∀ fuel, bl fuel 0 = 0
  | 0 => rfl
  | fuel + 1 => by simp [bl]

theorem bl_le : ∀ (fuel n : Nat), 1 ≤ n → 2 ^ (bl fuel n - 1) ≤ n := by
  intro fuel
  induction fuel with
  | zero =>
    intro n h1
    simpa [bl] using h1
  | succ fuel ih =>
    intro n h1
    simp only [bl]
    rw [if_neg (by omega)]
    simp only [Nat.add_sub_cancel]
    by_cases h2 : n / 2 = 0
    · rw [h2, bl_zero]
      simpa using h1
    · have ihh := ih (n / 2) (by omega)
      by_cases hb : bl fuel (n / 2) = 0
      · rw [hb]
        simpa using h1
      · have hsucc : bl fuel (n / 2) = (bl fuel (n / 2) - 1) + 1 := by omega
        rw [hsucc, pow_succ]
        calc 2 ^ (bl fuel (n / 2) - 1) * 2 ≤ (n / 2) * 2 :=
              mul_le_mul_right' ihh 2
          _ ≤ n := by omega

theorem bl_ge : ∀ (fuel k n : Nat), 2 ^ k ≤ n → k + 1 ≤ fuel →
    k + 1 ≤ bl fuel n := by
  intro fuel
  induction fuel with
  | zero =>
    intro k n _ h2
    omega
  | succ fuel ih =>
    intro k n h1 h2
    have hn : n ≠ 0 := by
      have : (0 : Nat) < 2 ^ k := by positivity
      omega
    simp only [bl]
    rw [if_neg hn]
    cases k with
    | zero => omega
    | succ k =>
      have hk : 2 ^ k ≤ n / 2 := by
        rw [Nat.le_div_iff_mul_le (by norm_num)]
        calc 2 ^ k * 2 = 2 ^ (k + 1) := (pow_succ 2 k).symm
          _ ≤ n := h1
      have := ih k (n / 2) hk (by omega)
      omega

theorem round_lower_core (a U P : Nat) (hkey : a ≤ U + P)
    (hble : P * 2 ^ 53 ≤ a) : a * (2 ^ 53 - 1) ≤ U * 2 ^ 53 := by omega

theorem roundDouble52_lower (a : Nat) :
    a * (2 ^ 53 - 1) ≤ roundDouble52 a * 2 ^ 53 := by
  by_cases h : a < 2 ^ 53
  · rw [roundDouble52, if_pos h]
    exact mul_le_mul_left' (by omega) a
  · simp only [roundDouble52]
    rw [if_neg h]
    have ha53 : 2 ^ 53 ≤ a := Nat.le_of_not_lt h
    have ha1 : 1 ≤ a := le_trans (by norm_num) ha53
    have hbl54 : 54 ≤ bitLen a := bl_ge 200 53 a ha53 (by norm_num)
    have hble : 2 ^ (bitLen a - 1) ≤ a := bl_le 200 a ha1
    set s := bitLen a - 53 with hs
    have hs1 : 1 ≤ s := by omega
    have hexp : bitLen a - 1 = (s - 1) + 53 := by omega
    rw [hexp, pow_add] at hble
    set M := a / 2 ^ s with hM
    set r := a % 2 ^ s with hr
    have hMr : M * 2 ^ s + r = a := by
      rw [Nat.mul_comm]
      exact Nat.div_add_mod a (2 ^ s)
    have hrQ : r < 2 ^ s := Nat.mod_lt a (by positivity)
    have hQ : 2 ^ s = 2 ^ (s - 1) * 2 := by
      rw [← pow_succ]
      congr 1
      omega
    split_ifs with h1 h2 h3
    · rw [Nat.add_mul, Nat.one_mul]
      omega
    · omega
    · omega
    · rw [Nat.add_mul, Nat.one_mul]
      omega

theorem new_capacity_ge (n : Nat) : n ≤ DA_NEW_CAPACITY_FROM_LENGTH n := by
  unfold DA_NEW_CAPACITY_FROM_LENGTH DA_CAPACITY_MIN DA_CAPACITY_FACTOR_NUM
  split
  · omega
  · set K := (2 : Nat) ^ 53 - 1 with hK
    set A := roundDouble52 n with hA
    set B := roundDouble52 (A * 5854679515581645) with hB
    have h1 : n * K ≤ A * 2 ^ 53 := by
      rw [hK, hA]
      exact roundDouble52_lower n
    have h2 : A * 5854679515581645 * K ≤ B * 2 ^ 53 := by
      rw [hK, hB]
      exact roundDouble52_lower (A * 5854679515581645)
    have hc : (2 : Nat) ^ 52 * 2 ^ 106 ≤ K * (5854679515581645 * K) := by
      rw [hK]
      norm_num
    have h3 : n * 2 ^ 52 * 2 ^ 106 ≤ B * 2 ^ 106 := by
      calc n * 2 ^ 52 * 2 ^ 106
          = n * (2 ^ 52 * 2 ^ 106) := by rw [Nat.mul_assoc]
        _ ≤ n * (K * (5854679515581645 * K)) := mul_le_mul_left' hc n
        _ = (n * K) * (5854679515581645 * K) := by rw [Nat.mul_assoc]
        _ ≤ (A * 2 ^ 53) * (5854679515581645 * K) :=
            mul_le_mul_right' h1 _
        _ = (A * 5854679515581645 * K) * 2 ^ 53 := by ring
        _ ≤ (B * 2 ^ 53) * 2 ^ 53 := mul_le_mul_right' h2 _
        _ = B * 2 ^ 106 := by ring
    have h4 : n * 2 ^ 52 ≤ B :=
      Nat.le_of_mul_le_mul_right h3 (by positivity)
    exact (Nat.le_div_iff_mul_le (by positivity)).mpr h4

theorem da_reserve_spec {ok : Bool} {junk : Nat → α} {d d' : Darray α}
    {n : Nat} (h : da_reserve ok junk d n = .ok d') :
    d'.length = d.length ∧ d.length + n ≤ d'.capacity ∧
    d.capacity ≤ d'.capacity ∧ d'.elemsz = d.elemsz ∧
    d'.memFuncs = d.memFuncs ∧ ∀ i, i < d.capacity → d'.data i = d.data i := by
  unfold da_reserve realloc_f da_length da_capacity at h
  by_cases hc : d.length + n ≤ d.capacity
  · simp only [ge_iff_le, hc, if_true, Except.ok.injEq] at h
    subst h
    exact ⟨rfl, hc, Nat.le_refl _, rfl, rfl, fun i _ => rfl⟩
  · simp only [ge_iff_le, hc, if_false] at h
    cases ok with
    | false => simp at h
    | true =>
      simp only [if_true, Except.ok.injEq] at h
      subst h
      have hcap : d.capacity ≤ DA_NEW_CAPACITY_FROM_LENGTH (d.length + n) :=
        Nat.le_trans (Nat.le_of_not_le hc |>.trans (Nat.le_refl _))
          (new_capacity_ge _)
      refine ⟨rfl, new_capacity_ge _, hcap, rfl, rfl, fun i hi => ?_⟩
      have : i < Nat.min d.capacity (DA_NEW_CAPACITY_FROM_LENGTH (d.length + n)) := by
        exact Nat.lt_min.mpr ⟨hi, Nat.lt_of_lt_of_le hi hcap⟩
      simp [this]

theorem da_reserve_true_total (junk : Nat → α) (d : Darray α) (n : Nat) :
    ∃ d', da_reserve true junk d n = .ok d' := by
  by_cases hc : da_capacity d ≥ da_length d + n
  · exact ⟨d, by unfold da_reserve; rw [if_pos hc]⟩
  · exact ⟨_, by unfold da_reserve; rw [if_neg hc]; rfl⟩

theorem valid_da_resize {ok : Bool} {junk : Nat → α} {d d' : Darray α}
    {n : Nat} (h : da_resize ok junk d n = .ok d') : Valid d' := by
  unfold da_resize realloc_f at h
  cases ok with
  | false => simp at h
  | true =>
    simp only [if_true, Except.ok.injEq] at h
    subst h
    exact new_capacity_ge n

theorem valid_da_resize_exact {ok : Bool} {junk : Nat → α} {d d' : Darray α}
    {n : Nat} (h : da_resize_exact ok junk d n = .ok d') : Valid d' := by
  unfold da_resize_exact realloc_f at h
  cases ok with
  | false => simp at h
  | true =>
    simp only [if_true, Except.ok.injEq] at h
    subst h
    exact Nat.le_refl n

theorem valid_da_reserve {ok : Bool} {junk : Nat → α} {d d' : Darray α}
    {n : Nat} (h : da_reserve ok junk d n = .ok d') : Valid d' := by
  obtain ⟨hl, hcap, -, -, -, -⟩ := da_reserve_spec h
  unfold Valid
  omega

theorem valid_da_push {ok : Bool} {junk : Nat → α} {d d' : Darray α}
    {v : α} (hv : Valid d) (h : _da_push ok junk d v = some d') : Valid d' := by
  unfold _da_push at h
  by_cases he : d.length = d.capacity
  · simp only [he, if_true] at h
    cases hr : da_reserve ok junk d 1 with
    | error e => rw [hr] at h; simp at h
    | ok dr =>
      rw [hr] at h
      simp only [Option.some.injEq] at h
      subst h
      obtain ⟨hl, hcap, -, -, -, -⟩ := da_reserve_spec hr
      unfold Valid
      simp only []
      omega
  · simp only [he, if_false, Option.some.injEq] at h
    subst h
    unfold Valid at hv ⊢
    simp only []
    omega

theorem valid_da_insert {ok : Bool} {junk : Nat → α} {d d' : Darray α}
    {i : Nat} {v : α} (hv : Valid d) (h : _da_insert ok junk d i v = some d') :
    Valid d' := by
  unfold _da_insert at h
  by_cases he : d.length = d.capacity
  · simp only [he, if_true] at h
    cases hr : da_reserve ok junk d 1 with
    | error e => rw [hr] at h; simp at h
    | ok dr =>
      rw [hr] at h
      simp only [Option.some.injEq] at h
      subst h
      obtain ⟨hl, hcap, -, -, -, -⟩ := da_reserve_spec hr
      unfold Valid
      simp only []
      omega
  · simp only [he, if_false, Option.some.injEq] at h
    subst h
    unfold Valid at hv ⊢
    simp only []
    omega

theorem valid_da_insert_arr {ok : Bool} {junk : Nat → α} {d d' : Darray α}
    {i n : Nat} {src : Nat → α}
    (h : da_insert_arr ok junk d i src n = .ok d') : Valid d' := by
  unfold da_insert_arr at h
  cases hr : da_reserve ok junk d n with
  | error e => rw [hr] at h; simp at h
  | ok dr =>
    rw [hr] at h
    simp only [Except.ok.injEq] at h
    subst h
    obtain ⟨hl, hcap, -, -, -, -⟩ := da_reserve_spec hr
    unfold Valid
    simp only []
    omega

theorem valid_da_concat {ok : Bool} {junk : Nat → α} {d d' : Darray α}
    {n : Nat} {src : Nat → α}
    (h : da_concat ok junk d src n = .ok d') : Valid d' := by
  unfold da_concat at h
  cases hr : da_reserve ok junk d n with
  | error e => rw [hr] at h; simp at h
  | ok dr =>
    rw [hr] at h
    simp only [Except.ok.injEq] at h
    subst h
    obtain ⟨hl, hcap, -, -, -, -⟩ := da_reserve_spec hr
    unfold Valid
    simp only []
    omega

theorem valid_da_remove_arr {d : Darray α} {i n : Nat} (hv : Valid d) :
    Valid (da_remove_arr d i n) := by
  unfold Valid at hv ⊢
  unfold da_remove_arr
  simp only []
  omega

theorem valid_da_pop {d : Darray α} (hv : Valid d) : Valid (_da_pop d).2 := by
  unfold Valid at hv ⊢
  unfold _da_pop
  simp only []
  omega

theorem valid_da_remove {d : Darray α} {i : Nat} (hv : Valid d) :
    Valid (_da_remove d i).2 := by
  unfold Valid at hv ⊢
  unfold _da_remove
  simp only []
  omega

/-- One core-library call on an instance, carrying its allocator oracle and
its arguments (`push`/`pop`/`insert`/`remove` in their header-macro forms,
the rest as the darray.c functions). -/
inductive DaOp (α : Type) where
  | resize (ok : Bool) (junk : Nat → α) (nelem : Nat)
  | resizeExact (ok : Bool) (junk : Nat → α) (nelem : Nat)
  | reserve (ok : Bool) (junk : Nat → α) (nelem : Nat)
  | push (ok : Bool) (junk : Nat → α) (value : α)
  | pop
  | insert (ok : Bool) (junk : Nat → α) (index : Nat) (value : α)
  | insertArr (ok : Bool) (junk : Nat → α) (index : Nat) (src : Nat → α)
      (nelem : Nat)
  | remove (index : Nat)
  | removeArr (index nelem : Nat)
  | concat (ok : Bool) (junk : Nat → α) (src : Nat → α) (nelem : Nat)

/-- Apply one call; `none` is a `NULL` return.  The `if` guards encode the
documented caller preconditions (`pop` needs `length > 0`, indices must be
in range; violating them is undefined behaviour per the header
documentation, so such calls are outside the modelled semantics). -/
def applyOp (d : Darray α) : DaOp α → Option (Darray α)
  | .resize ok junk n => exceptToOption (da_resize ok junk d n)
  | .resizeExact ok junk n => exceptToOption (da_resize_exact ok junk d n)
  | .reserve ok junk n => exceptToOption (da_reserve ok junk d n)
  | .push ok junk v => _da_push ok junk d v
  | .pop => if 1 ≤ d.length then some (_da_pop d).2 else none
  | .insert ok junk i v =>
      if i ≤ d.length then _da_insert ok junk d i v else none
  | .insertArr ok junk i src n =>
      if i ≤ d.length then exceptToOption (da_insert_arr ok junk d i src n)
      else none
  | .remove i => if i < d.length then some (_da_remove d i).2 else none
  | .removeArr i n =>
      if i + n ≤ d.length then some (da_remove_arr d i n) else none
  | .concat ok junk src n => exceptToOption (da_concat ok junk d src n)

/-- Run a sequence of calls, stopping at the first `NULL` return. -/
def runOps : Darray α → List (DaOp α) → Option (Darray α)
  | d, [] => some d
  | d, op :: ops =>
    match applyOp d op with
    | none => none
    | some d' => runOps d' ops

/-- One dstring-layer call (or an embedded core call on the byte array). -/
inductive DstrOp where
  | core (op : DaOp Nat)
  | concatChar (ok : Bool) (junk : Nat → Nat) (c : Nat)
  | concatCstr (ok : Bool) (junk : Nat → Nat) (src : List Nat)
  | concatDstr (ok : Bool) (junk : Nat → Nat) (src : Darray Nat)
  | concatFormat (ok : Bool) (junk : Nat → Nat) (rendered : List Nat)
  | reassignEmpty (ok : Bool) (junk : Nat → Nat)
  | reassignCstr (ok : Bool) (junk : Nat → Nat) (src : List Nat)
  | reassignDstr (ok : Bool) (junk : Nat → Nat) (src : Darray Nat)
  | reassignFormat (ok : Bool) (junk : Nat → Nat) (rendered : List Nat)
  | replaceAll (ok : Bool) (junk : Nat → Nat) (fuel : Nat)
      (substr new_str : List Nat)
  | replaceAllCase (ok : Bool) (junk : Nat → Nat) (fuel : Nat)
      (substr new_str : List Nat)
  | getdelim (ok : Bool) (junk : Nat → Nat) (delim : Int) (stream : List Nat)
  | trim

/-- Apply one dstring call; `none` is a `NULL` return (for the replace
loops also fuel exhaustion, for `trim` an out-of-bounds scan). -/
def applyDstrOp (d : Darray Nat) : DstrOp → Option (Darray Nat)
  | .core op => applyOp d op
  | .concatChar ok junk c => dstr_concat_char ok junk d c
  | .concatCstr ok junk src => dstr_concat_cstr ok junk d src
  | .concatDstr ok junk src => dstr_concat_dstr ok junk d src
  | .concatFormat ok junk rendered => dstr_concat_format ok junk d rendered
  | .reassignEmpty ok junk => dstr_reassign_empty ok junk d
  | .reassignCstr ok junk src => dstr_reassign_cstr ok junk d src
  | .reassignDstr ok junk src => dstr_reassign_dstr ok junk d src
  | .reassignFormat ok junk rendered => dstr_reassign_format ok junk d rendered
  | .replaceAll ok junk fuel ss ns =>
      (dstr_replace_all ok junk fuel d ss ns).join
  | .replaceAllCase ok junk fuel ss ns =>
      (dstr_replace_all_case ok junk fuel d ss ns).join
  | .getdelim ok junk delim stream =>
      (dstr_getdelim ok junk d delim stream).map (·.1)
  | .trim => dstr_trim d

/-- Run a sequence of dstring-layer calls. -/
def runDstrOps : Darray Nat → List DstrOp → Option (Darray Nat)
  | d, [] => some d
  | d, op :: ops =>
    match applyDstrOp d op with
    | none => none
    | some d' => runDstrOps d' ops

theorem valid_dstr_concat_char {ok : Bool} {junk : Nat → Nat}
    {d d' : Darray Nat} {c : Nat} (hv : Valid d)
    (h : dstr_concat_char ok junk d c = some d') : Valid d' :=
  valid_da_insert hv h

theorem valid_dstr_concat_cstr {ok : Bool} {junk : Nat → Nat}
    {d d' : Darray Nat} {src : List Nat}
    (h : dstr_concat_cstr ok junk d src = some d') : Valid d' := by
  simp only [dstr_concat_cstr] at h
  cases hr : da_reserve ok junk d src.length with
  | error e => rw [hr] at h; simp at h
  | ok dr =>
    rw [hr] at h
    simp only [Option.some.injEq] at h
    subst h
    obtain ⟨hl, hcap, -, -, -, -⟩ := da_reserve_spec hr
    unfold Valid
    simp only []
    omega

theorem valid_dstr_concat_dstr {ok : Bool} {junk : Nat → Nat}
    {d d' src : Darray Nat}
    (h : dstr_concat_dstr ok junk d src = some d') : Valid d' := by
  simp only [dstr_concat_dstr] at h
  cases hr : da_reserve ok junk d (dstr_length src) with
  | error e => rw [hr] at h; simp at h
  | ok dr =>
    rw [hr] at h
    simp only [Option.some.injEq] at h
    subst h
    obtain ⟨hl, hcap, -, -, -, -⟩ := da_reserve_spec hr
    unfold Valid
    simp only []
    omega

theorem valid_dstr_concat_format {ok : Bool} {junk : Nat → Nat}
    {d d' : Darray Nat} {rendered : List Nat}
    (h : dstr_concat_format ok junk d rendered = some d') : Valid d' := by
  simp only [dstr_concat_format] at h
  cases hr : da_reserve ok junk d rendered.length with
  | error e => rw [hr] at h; simp at h
  | ok dr =>
    rw [hr] at h
    simp only [Option.some.injEq] at h
    subst h
    obtain ⟨hl, hcap, -, -, -, -⟩ := da_reserve_spec hr
    unfold Valid
    simp only []
    omega

theorem valid_dstr_reassign_empty {ok : Bool} {junk : Nat → Nat}
    {d d' : Darray Nat}
    (h : dstr_reassign_empty ok junk d = some d') : Valid d' := by
  simp only [dstr_reassign_empty] at h
  cases hr : da_concat ok junk { d with length := 0 } (cstrFn []) 1 with
  | error e => rw [hr] at h; simp at h
  | ok d1 =>
    rw [hr] at h
    simp only [Option.some.injEq] at h
    subst h
    exact valid_da_concat hr

theorem valid_dstr_reassign_cstr {ok : Bool} {junk : Nat → Nat}
    {d d' : Darray Nat} {src : List Nat}
    (h : dstr_reassign_cstr ok junk d src = some d') : Valid d' := by
  simp only [dstr_reassign_cstr] at h
  cases hr : da_concat ok junk { d with length := 0 } (cstrFn src)
      (src.length + 1) with
  | error e => rw [hr] at h; simp at h
  | ok d1 =>
    rw [hr] at h
    simp only [Option.some.injEq] at h
    subst h
    exact valid_da_concat hr

theorem valid_dstr_reassign_dstr {ok : Bool} {junk : Nat → Nat}
    {d d' src : Darray Nat}
    (h : dstr_reassign_dstr ok junk d src = some d') : Valid d' := by
  simp only [dstr_reassign_dstr] at h
  cases hr : da_concat ok junk { d with length := 0 } src.data
      (da_length src) with
  | error e => rw [hr] at h; simp at h
  | ok d1 =>
    rw [hr] at h
    simp only [Option.some.injEq] at h
    subst h
    exact valid_da_concat hr

theorem valid_dstr_reassign_format {ok : Bool} {junk : Nat → Nat}
    {d d' : Darray Nat} {rendered : List Nat}
    (h : dstr_reassign_format ok junk d rendered = some d') : Valid d' := by
  simp only [dstr_reassign_format] at h
  cases hr : da_reserve ok junk { d with length := 0 }
      (rendered.length + 1) with
  | error e => rw [hr] at h; simp at h
  | ok d1 =>
    rw [hr] at h
    simp only [Option.some.injEq] at h
    subst h
    obtain ⟨hl, hcap, -, -, -, -⟩ := da_reserve_spec hr
    unfold Valid
    simp only []
    simp only [] at hl
    omega

theorem valid_replace_loop {ok : Bool} {junk : Nat → Nat}
    {ss ns : List Nat} :
    ∀ {fuel : Nat} {d d' : Darray Nat}, Valid d →
      dstrReplaceAllLoop ok junk ss ns fuel d = some (some d') → Valid d' := by
  intro fuel
  induction fuel with
  | zero => intro d d' _ h; simp [dstrReplaceAllLoop] at h
  | succ fuel ih =>
    intro d d' hv h
    unfold dstrReplaceAllLoop at h
    cases hf : strstrIdx (cstrOf d) ss with
    | none =>
      rw [hf] at h
      simp only [Option.some.injEq] at h
      rw [← h.symm] at hv
      exact h ▸ hv
    | some loc =>
      rw [hf] at h
      simp only [] at h
      cases hi : da_insert_arr ok junk (da_remove_arr d loc ss.length) loc
          (cstrFn ns) ns.length with
      | error e => rw [hi] at h; simp at h
      | ok d2 =>
        rw [hi] at h
        exact ih (valid_da_insert_arr hi) h

theorem valid_replace_case_loop {ok : Bool} {junk : Nat → Nat}
    {ss ns : List Nat} :
    ∀ {fuel : Nat} {d d' : Darray Nat}, Valid d →
      dstrReplaceAllCaseLoop ok junk ss ns fuel d = some (some d') →
        Valid d' := by
  intro fuel
  induction fuel with
  | zero => intro d d' _ h; simp [dstrReplaceAllCaseLoop] at h
  | succ fuel ih =>
    intro d d' hv h
    unfold dstrReplaceAllCaseLoop at h
    cases hf : _da_strcasestr (cstrOf d) ss with
    | none =>
      rw [hf] at h
      simp only [Option.some.injEq] at h
      exact h ▸ hv
    | some loc =>
      rw [hf] at h
      simp only [] at h
      cases hi : da_insert_arr ok junk (da_remove_arr d loc ss.length) loc
          (cstrFn ns) ns.length with
      | error e => rw [hi] at h; simp at h
      | ok d2 =>
        rw [hi] at h
        exact ih (valid_da_insert_arr hi) h

theorem valid_getdelim_loop {ok : Bool} {junk : Nat → Nat} {delim : Int} :
    ∀ {stream : List Nat} {d d' : Darray Nat} {rest : List Nat}, Valid d →
      getdelimLoop ok junk delim d stream = some (d', rest) → Valid d' := by
  intro stream
  induction stream with
  | nil =>
    intro d d' rest hv h
    unfold getdelimLoop at h
    by_cases hd : delim = -1
    · rw [if_pos hd] at h
      simp only [Option.some.injEq, Prod.mk.injEq] at h
      exact h.1 ▸ hv
    · rw [if_neg hd] at h; simp at h
  | cons b tail ih =>
    intro d d' rest hv h
    unfold getdelimLoop at h
    by_cases hb : (b : Int) = delim
    · rw [if_pos hb] at h
      simp only [Option.some.injEq, Prod.mk.injEq] at h
      exact h.1 ▸ hv
    · rw [if_neg hb] at h
      cases hc : dstr_concat_char ok junk d b with
      | none => rw [hc] at h; simp at h
      | some d2 =>
        rw [hc] at h
        exact ih (valid_dstr_concat_char hv hc) h

theorem valid_dstr_getdelim {ok : Bool} {junk : Nat → Nat}
    {d d' : Darray Nat} {delim : Int} {stream rest : List Nat}
    (h : dstr_getdelim ok junk d delim stream = some (d', rest)) :
    Valid d' := by
  simp only [dstr_getdelim] at h
  cases hr : dstr_reassign_empty ok junk d with
  | none => rw [hr] at h; simp at h
  | some d0 =>
    rw [hr] at h
    exact valid_getdelim_loop (valid_dstr_reassign_empty hr) h

theorem valid_dstr_trim {d d' : Darray Nat} (hv : Valid d)
    (h : dstr_trim d = some d') : Valid d' := by
  simp only [dstr_trim] at h
  by_cases h1 : ((trackedBytes d).takeWhile isspaceByte).length = d.length
  · rw [if_pos h1] at h; simp at h
  · rw [if_neg h1] at h
    by_cases h2 :
        dstr_length (da_remove_arr d 0
          ((trackedBytes d).takeWhile isspaceByte).length) = 0
    · rw [if_pos h2] at h; simp at h
    · rw [if_neg h2] at h
      by_cases h3 :
          ((((List.range (dstr_length (da_remove_arr d 0
            ((trackedBytes d).takeWhile isspaceByte).length))).map
              (da_remove_arr d 0
                ((trackedBytes d).takeWhile isspaceByte).length).data).reverse).takeWhile
            isspaceByte).length =
          dstr_length (da_remove_arr d 0
            ((trackedBytes d).takeWhile isspaceByte).length)
      · rw [if_pos h3] at h; simp at h
      · rw [if_neg h3] at h
        simp only [Option.some.injEq] at h
        exact h ▸ valid_da_remove_arr (valid_da_remove_arr hv)

theorem exceptToOption_eq_some {e : Except ε β} {b : β}
    (h : exceptToOption e = some b) : e = .ok b := by
  cases e with
  | error a => simp [exceptToOption] at h
  | ok a => simp only [exceptToOption, Option.some.injEq] at h; rw [h]

theorem valid_da_alloc_custom {ok : Bool} {junk : Nat → α} {mf n s : Nat}
    {d : Darray α} (h : da_alloc_custom ok junk mf n s = some d) : Valid d := by
  simp only [da_alloc_custom] at h
  cases ok with
  | false => simp at h
  | true =>
    simp only [if_true, Option.some.injEq] at h
    subst h
    exact new_capacity_ge n

theorem valid_da_alloc_exact_custom {ok : Bool} {junk : Nat → α}
    {mf n s : Nat} {d : Darray α}
    (h : da_alloc_exact_custom ok junk mf n s = some d) : Valid d := by
  simp only [da_alloc_exact_custom] at h
  cases ok with
  | false => simp at h
  | true =>
    simp only [if_true, Option.some.injEq] at h
    subst h
    exact Nat.le_refl n

theorem valid_applyOp {d d' : Darray α} (op : DaOp α) (hv : Valid d)
    (h : applyOp d op = some d') : Valid d' := by
  cases op with
  | resize ok junk n => exact valid_da_resize (exceptToOption_eq_some h)
  | resizeExact ok junk n =>
    exact valid_da_resize_exact (exceptToOption_eq_some h)
  | reserve ok junk n => exact valid_da_reserve (exceptToOption_eq_some h)
  | push ok junk v => exact valid_da_push hv h
  | pop =>
    simp only [applyOp] at h
    by_cases hl : 1 ≤ d.length
    · rw [if_pos hl] at h
      simp only [Option.some.injEq] at h
      exact h ▸ valid_da_pop hv
    · rw [if_neg hl] at h; simp at h
  | insert ok junk i v =>
    simp only [applyOp] at h
    by_cases hl : i ≤ d.length
    · rw [if_pos hl] at h
      exact valid_da_insert hv h
    · rw [if_neg hl] at h; simp at h
  | insertArr ok junk i src n =>
    simp only [applyOp] at h
    by_cases hl : i ≤ d.length
    · rw [if_pos hl] at h
      exact valid_da_insert_arr (exceptToOption_eq_some h)
    · rw [if_neg hl] at h; simp at h
  | remove i =>
    simp only [applyOp] at h
    by_cases hl : i < d.length
    · rw [if_pos hl] at h
      simp only [Option.some.injEq] at h
      exact h ▸ valid_da_remove hv
    · rw [if_neg hl] at h; simp at h
  | removeArr i n =>
    simp only [applyOp] at h
    by_cases hl : i + n ≤ d.length
    · rw [if_pos hl] at h
      simp only [Option.some.injEq] at h
      exact h ▸ valid_da_remove_arr hv
    · rw [if_neg hl] at h; simp at h
  | concat ok junk src n => exact valid_da_concat (exceptToOption_eq_some h)

theorem valid_runOps {d : Darray α} :
    ∀ {ops : List (DaOp α)} {d' : Darray α}, Valid d →
      runOps d ops = some d' → Valid d' := by
  intro ops
  induction ops generalizing d with
  | nil =>
    intro d' hv h
    simp only [runOps, Option.some.injEq] at h
    exact h ▸ hv
  | cons op rest ih =>
    intro d' hv h
    unfold runOps at h
    cases ha : applyOp d op with
    | none => rw [ha] at h; simp at h
    | some d1 =>
      rw [ha] at h
      exact ih (valid_applyOp op hv ha) h

theorem valid_applyDstrOp {d d' : Darray Nat} (op : DstrOp) (hv : Valid d)
    (h : applyDstrOp d op = some d') : Valid d' := by
  cases op with
  | core op => exact valid_applyOp op hv h
  | concatChar ok junk c => exact valid_dstr_concat_char hv h
  | concatCstr ok junk src => exact valid_dstr_concat_cstr h
  | concatDstr ok junk src => exact valid_dstr_concat_dstr h
  | concatFormat ok junk rendered => exact valid_dstr_concat_format h
  | reassignEmpty ok junk => exact valid_dstr_reassign_empty h
  | reassignCstr ok junk src => exact valid_dstr_reassign_cstr h
  | reassignDstr ok junk src => exact valid_dstr_reassign_dstr h
  | reassignFormat ok junk rendered => exact valid_dstr_reassign_format h
  | replaceAll ok junk fuel ss ns =>
    simp only [applyDstrOp, Option.join_eq_some] at h
    exact valid_replace_loop hv h
  | replaceAllCase ok junk fuel ss ns =>
    simp only [applyDstrOp, Option.join_eq_some] at h
    exact valid_replace_case_loop hv h
  | getdelim ok junk delim stream =>
    simp only [applyDstrOp, Option.map_eq_some'] at h
    obtain ⟨⟨d2, rest⟩, hg, he⟩ := h
    exact he ▸ valid_dstr_getdelim hg
  | trim => exact valid_dstr_trim hv h

theorem valid_runDstrOps {d : Darray Nat} :
    ∀ {ops : List DstrOp} {d' : Darray Nat}, Valid d →
      runDstrOps d ops = some d' → Valid d' := by
  intro ops
  induction ops generalizing d with
  | nil =>
    intro d' hv h
    simp only [runDstrOps, Option.some.injEq] at h
    exact h ▸ hv
  | cons op rest ih =>
    intro d' hv h
    unfold runDstrOps at h
    cases ha : applyDstrOp d op with
    | none => rw [ha] at h; simp at h
    | some d1 =>
      rw [ha] at h
      exact ih (valid_applyDstrOp op hv ha) h

/-! ## Claim theorems -/

/-- Modelled from the spec: default capacity
`max(BASELINE, ceil(count × 1.3))` with BASELINE = 10, the arithmetic exact
and the fractional product rounded up. -/
def specCeilCapacity (count : Nat) : Nat :=
  Nat.max 10 ((count * 13 + 9) / 10)

/-- C2 counterexample: `da_alloc(11, 1)` yields capacity 14, but the claimed
formula `max(10, ceil(11 × 1.3))` gives 15 (the C cast truncates the
product); and `da_alloc(9, 1)` yields capacity 10 where the claimed formula
gives `max(10, ceil(11.7)) = 12` (below `DA_CAPACITY_MIN` the code never
evaluates the product). -/
theorem C2_capacity_not_ceil_cex :
    (da_alloc (α := Nat) true (fun _ => 0) 11 1).map da_capacity = some 14 ∧
    specCeilCapacity 11 = 15 ∧
    (da_alloc (α := Nat) true (fun _ => 0) 9 1).map da_capacity = some 10 ∧
    specCeilCapacity 9 = 12 := by
  refine ⟨by decide, by decide, by decide, by decide⟩

set_option maxRecDepth 20000 in
/-- C2 (amended): a successful `da_alloc(n, s)` / `da_alloc_custom` produces
an instance with length `n` and capacity exactly `10` when `n < 10`, and
otherwise the `size_t` truncation of the IEEE-754 double product
`(double)n × 1.3` — `n` rounded to 53 significant bits, multiplied by the
exact significand `5854679515581645 / 2^52` of `1.3`, the product rounded
to nearest (ties to even) and then truncated toward zero, never rounded
up: the capacity for `n = 11` is 14, not `⌈14.3⌉ = 15`, and for `n = 9` it
is 10, not 12.  The binary rounding of the product can exceed `⌊13n/10⌋`
by one (at `n = 2251799813685243` the capacity is `⌊13n/10⌋ + 1`), and the
capacity never falls below `n`. -/
theorem C2_alloc_capacity_formula {α : Type} (ok : Bool) (junk : Nat → α)
    (mf n s : Nat) (d : Darray α) :
    (da_alloc ok junk n s = some d →
      da_length d = n ∧
      da_capacity d =
        if n < 10 then 10
        else roundDouble52 (roundDouble52 n * 5854679515581645) / 2 ^ 52) ∧
    (da_alloc_custom ok junk mf n s = some d →
      da_length d = n ∧
      da_capacity d =
        if n < 10 then 10
        else roundDouble52 (roundDouble52 n * 5854679515581645) / 2 ^ 52) ∧
    n ≤ DA_NEW_CAPACITY_FROM_LENGTH n ∧
    DA_NEW_CAPACITY_FROM_LENGTH 11 = 14 ∧
    DA_NEW_CAPACITY_FROM_LENGTH 9 = 10 ∧
    DA_NEW_CAPACITY_FROM_LENGTH 2251799813685243 =
      13 * 2251799813685243 / 10 + 1 := by
  have hc : ∀ (mf2 : Nat) (d' : Darray α),
      da_alloc_custom ok junk mf2 n s = some d' →
      da_length d' = n ∧
      da_capacity d' =
        if n < 10 then 10
        else roundDouble52 (roundDouble52 n * 5854679515581645) / 2 ^ 52 := by
    intro mf2 d' h
    simp only [da_alloc_custom] at h
    cases ok with
    | false => simp at h
    | true =>
      simp only [if_true, Option.some.injEq] at h
      subst h
      exact ⟨rfl, rfl⟩
  refine ⟨fun h => hc DA_DEFAULT_MEM_FUNCS d h, fun h => hc mf d h,
    new_capacity_ge n, by decide, by decide, by decide⟩

def c2d : Darray Nat :=
  (da_alloc true (fun _ => 0) 11 1).getD (Darray.mk 0 0 0 0 (fun _ => 0))

theorem C2_alloc_capacity_formula_witness :
    (da_length c2d = 11 ∧
      da_capacity c2d =
        if 11 < 10 then 10
        else roundDouble52 (roundDouble52 11 * 5854679515581645) / 2 ^ 52) ∧
    11 ≤ DA_NEW_CAPACITY_FROM_LENGTH 11 :=
  ⟨(C2_alloc_capacity_formula true (fun _ => 0) 0 11 1 c2d).1 rfl,
   (C2_alloc_capacity_formula (α := Nat) true (fun _ => 0) 0 11 1
     c2d).2.2.1⟩

/-- C3 counterexample: `da_alloc(0, 4)` then `da_reserve(·, 100)` produces
an instance of length 0 and capacity 130; the growth `da_resize(·, 1)`
(new length 1 > old length 0) succeeds but leaves capacity 10 < 130 — a
successful growth resize can decrease the capacity. -/
theorem C3_resize_growth_shrinks_capacity_cex :
    ((da_alloc (α := Nat) true (fun _ => 0) 0 4).bind (fun d =>
      exceptToOption (da_reserve true (fun _ => 0) d 100))).map
        (fun d => (da_length d, da_capacity d)) = some (0, 130) ∧
    (((da_alloc (α := Nat) true (fun _ => 0) 0 4).bind (fun d =>
      exceptToOption (da_reserve true (fun _ => 0) d 100))).bind (fun d =>
      exceptToOption (da_resize true (fun _ => 0) d 1))).map
        (fun d => (da_length d, da_capacity d)) = some (1, 10) ∧
    10 < 130 := by
  refine ⟨by decide, by decide, by decide⟩

/-- C3 (amended): a successful growth `da_resize(h, n)` (with
`n > da_length(h)`) sets the length to `n` and yields capacity
`DA_NEW_CAPACITY_FROM_LENGTH(n) ≥ n`, never below the new length — but the
new capacity is computed from `n` alone and may be smaller than the
capacity before the call. -/
theorem C3_resize_growth_capacity_ge_new_length {α : Type} (ok : Bool)
    (junk : Nat → α) (d d' : Darray α) (n : Nat)
    (_hgrow : da_length d < n) (h : da_resize ok junk d n = .ok d') :
    da_length d' = n ∧ n ≤ da_capacity d' ∧
    da_capacity d' = DA_NEW_CAPACITY_FROM_LENGTH n := by
  unfold da_resize realloc_f at h
  cases ok with
  | false => simp at h
  | true =>
    simp only [if_true, Except.ok.injEq] at h
    subst h
    exact ⟨rfl, new_capacity_ge n, rfl⟩

def c3d : Darray Nat := Darray.mk 1 0 10 0 (fun _ => 0)

def c3r : Darray Nat :=
  (exceptToOption (da_resize true (fun _ => 0) c3d 1)).getD c3d

theorem C3_resize_growth_capacity_ge_new_length_witness :
    da_length c3r = 1 ∧ 1 ≤ da_capacity c3r ∧
    da_capacity c3r = DA_NEW_CAPACITY_FROM_LENGTH 1 :=
  C3_resize_growth_capacity_ge_new_length true (fun _ => 0) c3d c3r 1
    (by decide) rfl

/-- C5: if the underlying reallocation fails (`ok = false`) during
`da_resize`, `da_resize_exact`, or `da_reserve` (the latter only attempts a
reallocation when the present capacity is insufficient), the operation
returns the `NULL` failure sentinel (`.error`) carrying the original
instance completely unchanged — contents, length and capacity exactly as
before the call. -/
theorem C5_failed_realloc_leaves_original {α : Type} (junk : Nat → α)
    (d : Darray α) (n : Nat) :
    da_resize false junk d n = .error d ∧
    da_resize_exact false junk d n = .error d ∧
    (da_capacity d < da_length d + n →
      da_reserve false junk d n = .error d) := by
  refine ⟨rfl, rfl, fun h => ?_⟩
  unfold da_reserve
  rw [if_neg (Nat.not_le.mpr h)]
  rfl

theorem C5_failed_realloc_leaves_original_witness :
    da_resize false (fun _ => (7 : Nat)) (Darray.mk 1 2 2 0 (fun _ => 0)) 5 =
      .error (Darray.mk 1 2 2 0 (fun _ => 0)) ∧
    da_resize_exact false (fun _ => (7 : Nat))
        (Darray.mk 1 2 2 0 (fun _ => 0)) 5 =
      .error (Darray.mk 1 2 2 0 (fun _ => 0)) ∧
    da_reserve false (fun _ => (7 : Nat)) (Darray.mk 1 2 2 0 (fun _ => 0)) 5 =
      .error (Darray.mk 1 2 2 0 (fun _ => 0)) :=
  ⟨(C5_failed_realloc_leaves_original (fun _ => 7)
      (Darray.mk 1 2 2 0 (fun _ => 0)) 5).1,
   (C5_failed_realloc_leaves_original (fun _ => 7)
      (Darray.mk 1 2 2 0 (fun _ => 0)) 5).2.1,
   (C5_failed_realloc_leaves_original (fun _ => 7)
      (Darray.mk 1 2 2 0 (fun _ => 0)) 5).2.2 (by decide)⟩

/-- C6: a successful `da_reserve(h, n)` leaves the length unchanged and
establishes `capacity ≥ length + n`; when `capacity ≥ length + n` already
holds it returns the very same instance unmodified (no relocation); hence a
second `da_reserve` with the same or smaller count directly after a
successful one is the identity. -/
theorem C6_reserve_guarantee_and_noop {α : Type} (ok ok2 : Bool)
    (junk junk2 : Nat → α) (d d' : Darray α) (n m : Nat) :
    (da_reserve ok junk d n = .ok d' →
      da_length d' = da_length d ∧ da_length d' + n ≤ da_capacity d') ∧
    (da_length d + n ≤ da_capacity d → da_reserve ok junk d n = .ok d) ∧
    (da_reserve ok junk d n = .ok d' → m ≤ n →
      da_reserve ok2 junk2 d' m = .ok d') := by
  refine ⟨fun h => ?_, fun h => ?_, fun h hm => ?_⟩
  · obtain ⟨hl, hcap, -, -, -, -⟩ := da_reserve_spec h
    unfold da_length da_capacity
    rw [hl]
    exact ⟨rfl, hcap⟩
  · unfold da_reserve
    rw [if_pos h]
  · obtain ⟨hl, hcap, -, -, -, -⟩ := da_reserve_spec h
    unfold da_reserve
    have : da_length d' + m ≤ da_capacity d' := by
      unfold da_length da_capacity
      omega
    rw [if_pos this]

def c6d0 : Darray Nat := Darray.mk 1 0 10 0 (fun _ => 0)

def c6d1 : Darray Nat :=
  (exceptToOption (da_reserve true (fun _ => 0) c6d0 100)).getD c6d0

theorem C6_reserve_guarantee_and_noop_witness :
    (da_length c6d1 = da_length c6d0 ∧
      da_length c6d1 + 100 ≤ da_capacity c6d1) ∧
    da_reserve true (fun _ => 0) c6d1 60 = .ok c6d1 :=
  ⟨(C6_reserve_guarantee_and_noop true true (fun _ => 0) (fun _ => 0)
      c6d0 c6d1 100 60).1 rfl,
   (C6_reserve_guarantee_and_noop true true (fun _ => 0) (fun _ => 0)
      c6d0 c6d1 100 60).2.2 rfl (by decide)⟩

/-- C10: a successful `da_resize(h, n)` or `da_resize_exact(h, n)` on a
structurally valid instance preserves the stored values at all indices
below `min (old length) n`, and leaves the element size and the bound
allocation-strategy triple unchanged; only length and capacity are
updated (to `n` and the respective new capacity). -/
theorem C10_resize_preserves_prefix_and_frame {α : Type} (ok : Bool)
    (junk : Nat → α) (d d' : Darray α) (n : Nat) (hv : Valid d) :
    (da_resize ok junk d n = .ok d' →
      (∀ i, i < Nat.min d.length n → d'.data i = d.data i) ∧
      da_sizeof_elem d' = da_sizeof_elem d ∧ d'.memFuncs = d.memFuncs ∧
      da_length d' = n ∧ da_capacity d' = DA_NEW_CAPACITY_FROM_LENGTH n) ∧
    (da_resize_exact ok junk d n = .ok d' →
      (∀ i, i < Nat.min d.length n → d'.data i = d.data i) ∧
      da_sizeof_elem d' = da_sizeof_elem d ∧ d'.memFuncs = d.memFuncs ∧
      da_length d' = n ∧ da_capacity d' = n) := by
  constructor
  · intro h
    unfold da_resize realloc_f at h
    cases ok with
    | false => simp at h
    | true =>
      simp only [if_true, Except.ok.injEq] at h
      subst h
      refine ⟨fun i hi => ?_, rfl, rfl, rfl, rfl⟩
      have hmin : i < Nat.min d.capacity (DA_NEW_CAPACITY_FROM_LENGTH n) := by
        have h1 : i < d.length := Nat.lt_of_lt_of_le (Nat.lt_min.mp hi).1
          (Nat.le_refl _)
        have h2 : i < n := (Nat.lt_min.mp hi).2
        exact Nat.lt_min.mpr
          ⟨Nat.lt_of_lt_of_le h1 hv, Nat.lt_of_lt_of_le h2 (new_capacity_ge n)⟩
      simp [hmin]
  · intro h
    unfold da_resize_exact realloc_f at h
    cases ok with
    | false => simp at h
    | true =>
      simp only [if_true, Except.ok.injEq] at h
      subst h
      refine ⟨fun i hi => ?_, rfl, rfl, rfl, rfl⟩
      have hmin : i < Nat.min d.capacity n := by
        have h1 : i < d.length := (Nat.lt_min.mp hi).1
        have h2 : i < n := (Nat.lt_min.mp hi).2
        exact Nat.lt_min.mpr ⟨Nat.lt_of_lt_of_le h1 hv, h2⟩
      simp [hmin]

def c10d : Darray Nat := Darray.mk 1 3 10 0 (fun i => i)

def c10r : Darray Nat :=
  (exceptToOption (da_resize true (fun _ => 99) c10d 2)).getD c10d

def c10re : Darray Nat :=
  (exceptToOption (da_resize_exact true (fun _ => 99) c10d 2)).getD c10d

theorem C10_resize_preserves_prefix_and_frame_witness :
    c10r.data 0 = c10d.data 0 ∧ c10r.data 1 = c10d.data 1 ∧
    da_sizeof_elem c10r = da_sizeof_elem c10d ∧
    da_length c10r = 2 ∧ da_capacity c10r = 10 ∧
    c10re.data 1 = c10d.data 1 ∧ da_length c10re = 2 ∧
    da_capacity c10re = 2 := by
  have hv : Valid c10d := by decide
  obtain ⟨hp, hs, -, hl, hc⟩ :=
    (C10_resize_preserves_prefix_and_frame true (fun _ => 99) c10d c10r 2
      hv).1 rfl
  obtain ⟨hp2, -, -, hl2, hc2⟩ :=
    (C10_resize_preserves_prefix_and_frame true (fun _ => 99) c10d c10re 2
      hv).2 rfl
  exact ⟨hp 0 (by decide), hp 1 (by decide), hs, hl, hc,
    hp2 1 (by decide), hl2, hc2⟩

/-- C4: after every call that returns a non-failure handle — allocation,
any core sequence operation (resize, resize_exact, reserve, push, pop,
insert, insert_arr, remove, remove_arr, concat) and any dstring operation
built on them — the invariant `capacity ≥ length` holds, for every
sequence of such calls. -/
theorem C4_capacity_ge_length_invariant :
    (∀ (α : Type) (ok : Bool) (junk : Nat → α) (mf n s : Nat) (d : Darray α),
      (da_alloc ok junk n s = some d → Valid d) ∧
      (da_alloc_exact ok junk n s = some d → Valid d) ∧
      (da_alloc_custom ok junk mf n s = some d → Valid d) ∧
      (da_alloc_exact_custom ok junk mf n s = some d → Valid d)) ∧
    (∀ (α : Type) (d : Darray α) (ops : List (DaOp α)) (d' : Darray α),
      Valid d → runOps d ops = some d' → Valid d') ∧
    (∀ (d : Darray Nat) (ops : List DstrOp) (d' : Darray Nat),
      Valid d → runDstrOps d ops = some d' → Valid d') := by
  refine ⟨fun α ok junk mf n s d => ?_, fun α d ops d' hv h => ?_,
    fun d ops d' hv h => ?_⟩
  · exact ⟨fun h => valid_da_alloc_custom h,
      fun h => valid_da_alloc_exact_custom h,
      fun h => valid_da_alloc_custom h,
      fun h => valid_da_alloc_exact_custom h⟩
  · exact valid_runOps hv h
  · exact valid_runDstrOps hv h

def c4d : Darray Nat := Darray.mk 4 0 10 0 (fun _ => 0)

def c4r : Darray Nat :=
  (runOps c4d [DaOp.push true (fun _ => 0) 5, DaOp.pop]).getD c4d

def c4s : Darray Nat :=
  (runDstrOps (ofText [32, 97] 10) [DstrOp.trim]).getD c4d

theorem C4_capacity_ge_length_invariant_witness :
    Valid ((da_alloc (α := Nat) true (fun _ => 0) 3 4).getD c4d) ∧
    Valid c4r ∧ Valid c4s := by
  refine ⟨?_, ?_, ?_⟩
  · exact (C4_capacity_ge_length_invariant.1 Nat true (fun _ => 0) 0 3 4
      ((da_alloc (α := Nat) true (fun _ => 0) 3 4).getD c4d)).1 rfl
  · exact C4_capacity_ge_length_invariant.2.1 Nat c4d
      [DaOp.push true (fun _ => 0) 5, DaOp.pop] c4r (by decide) rfl
  · exact C4_capacity_ge_length_invariant.2.2 (ofText [32, 97] 10)
      [DstrOp.trim] c4s (by decide) rfl

/-- Push the values of `vs` in order with `da_push` (allocator succeeding:
the oracle of every push is `true`). -/
def pushList (junk : Nat → α) : Darray α → List α → Option (Darray α)
  | d, [] => some d
  | d, v :: vs =>
    match _da_push true junk d v with
    | none => none
    | some d' => pushList junk d' vs

/-- Call `da_pop` `n` times, collecting the popped values in pop order. -/
def popN : Darray α → Nat → List α × Darray α
  | d, 0 => ([], d)
  | d, n + 1 =>
    let p := _da_pop d
    let r := popN p.2 n
    (p.1 :: r.1, r.2)

theorem push_true_spec (junk : Nat → α) (d : Darray α) (v : α)
    (hv : Valid d) :
    ∃ d', _da_push true junk d v = some d' ∧ Valid d' ∧
      d'.length = d.length + 1 ∧ (∀ i, i < d.length → d'.data i = d.data i) ∧
      d'.data d.length = v := by
  unfold _da_push
  by_cases he : d.length = d.capacity
  · rw [if_pos he]
    obtain ⟨dr, hr⟩ := da_reserve_true_total junk d 1
    rw [hr]
    obtain ⟨hl, hcap, hcap2, -, -, hdata⟩ := da_reserve_spec hr
    refine ⟨_, rfl, ?_, ?_, fun i hi => ?_, ?_⟩
    · unfold Valid
      simp only []
      omega
    · simp only []
      omega
    · simp only []
      rw [if_neg (by omega)]
      exact hdata i (by omega)
    · simp only []
      rw [if_pos (by omega)]
  · rw [if_neg he]
    unfold Valid at hv
    refine ⟨_, rfl, ?_, ?_, fun i hi => ?_, ?_⟩
    · unfold Valid
      simp only []
      omega
    · simp only []
    · simp only []
      rw [if_neg (by omega)]
    · simp

theorem pushList_spec (junk : Nat → α) :
    ∀ (vs : List α) (d : Darray α), Valid d →
      ∃ d', pushList junk d vs = some d' ∧ Valid d' ∧
        d'.length = d.length + vs.length ∧
        (∀ i, i < d.length → d'.data i = d.data i) ∧
        (∀ j (hj : j < vs.length), d'.data (d.length + j) = vs[j]) := by
  intro vs
  induction vs with
  | nil =>
    intro d hv
    exact ⟨d, rfl, hv, by simp, fun i _ => rfl,
      fun j hj => absurd hj (by simp)⟩
  | cons v vt ih =>
    intro d hv
    obtain ⟨d1, h1, hv1, hl1, hp1, hval1⟩ := push_true_spec junk d v hv
    obtain ⟨d2, h2, hv2, hl2, hp2, hval2⟩ := ih d1 hv1
    refine ⟨d2, ?_, hv2, ?_, fun i hi => ?_, fun j hj => ?_⟩
    · simp only [pushList]
      rw [h1]
      exact h2
    · simp only [List.length_cons]
      omega
    · rw [hp2 i (by omega), hp1 i hi]
    · cases j with
      | zero =>
        have hx : d2.data (d.length + 0) = d1.data d.length := by
          have := hp2 d.length (by omega)
          simpa using this
        rw [hx, hval1]
        simp
      | succ j =>
        have hj2 : j < vt.length := by
          simp only [List.length_cons] at hj
          omega
        have hidx : d.length + (j + 1) = d1.length + j := by omega
        rw [hidx, hval2 j hj2]
        simp

theorem popN_eq :
    ∀ (n : Nat) (d : Darray α),
      popN d n = ((List.range n).map (fun k => d.data (d.length - 1 - k)),
        { d with length := d.length - n }) := by
  intro n
  induction n with
  | zero => intro d; rfl
  | succ n ih =>
    intro d
    show (_, _) = _
    rw [ih]
    unfold _da_pop
    simp only [Prod.mk.injEq]
    constructor
    · rw [List.range_succ_eq_map, List.map_cons, List.map_map]
      congr 1
      apply List.map_congr_left
      intro k _
      simp only [Function.comp_apply]
      congr 1
      omega
    · have hx : d.length - 1 - n = d.length - (n + 1) := by omega
      rw [hx]

/-- C7: for every valid darray of initial length `L`, pushing the values
`v0..v(n-1)` with `da_push` (all pushes succeeding) and then calling
`da_pop` `n` times returns the values in reverse order `v(n-1)..v0` and
leaves the final length equal to the pre-push length `L`. -/
theorem C7_push_pop_roundtrip {α : Type} (junk : Nat → α) (d d' : Darray α)
    (vs : List α) (hv : Valid d) (h : pushList junk d vs = some d') :
    (popN d' vs.length).1 = vs.reverse ∧
    (popN d' vs.length).2.length = da_length d := by
  obtain ⟨d2, h2, hv2, hl2, hp2, hval2⟩ := pushList_spec junk vs d hv
  rw [h2] at h
  injection h with h
  subst h
  rw [popN_eq]
  constructor
  · apply List.ext_getElem
    · simp
    · intro k h1 hk2
      have hkn : k < vs.length := by simpa using h1
      have hidx : d2.length - 1 - k = d.length + (vs.length - 1 - k) := by
        omega
      simp only [List.getElem_map, List.getElem_range]
      rw [hidx, hval2 (vs.length - 1 - k) (by omega)]
      rw [List.getElem_reverse]
  · simp only []
    unfold da_length
    omega

def c7d : Darray Nat := Darray.mk 1 1 10 0 (fun _ => 0)

def c7r : Darray Nat :=
  (pushList (fun _ => 0) c7d [4, 5, 6]).getD c7d

theorem C7_push_pop_roundtrip_witness :
    (popN c7r 3).1 = [6, 5, 4] ∧ (popN c7r 3).2.length = 1 :=
  C7_push_pop_roundtrip (fun _ => 0) c7d c7r [4, 5, 6] (by decide) rfl

/-- The text of a dstring instance: its first `dstr_length` tracked bytes
(everything before the terminator slot). -/
def textOf (d : Darray Nat) : List Nat :=
  (List.range (dstr_length d)).map d.data

theorem textOf_eq {d : Darray Nat} {L : List Nat}
    (hl : dstr_length d = L.length)
    (h : ∀ i (hi : i < L.length), d.data i = L[i]) : textOf d = L := by
  apply List.ext_getElem (by simp [textOf, hl])
  intro k h1 h2
  simp only [textOf, List.getElem_map, List.getElem_range]
  exact h k h2

theorem textOf_getElem {d : Darray Nat} {i : Nat} (hi : i < (textOf d).length) :
    (textOf d)[i] = d.data i := by
  simp [textOf]

theorem textOf_length (d : Darray Nat) : (textOf d).length = dstr_length d := by
  simp [textOf]

theorem dstr_concat_char_spec (junk : Nat → Nat) (d : Darray Nat) (c : Nat)
    (hv : Valid d) (ht : TermInv d) :
    ∃ d', dstr_concat_char true junk d c = some d' ∧ Valid d' ∧ TermInv d' ∧
      d'.length = d.length + 1 ∧ textOf d' = textOf d ++ [c] := by
  obtain ⟨h1, h0⟩ := ht
  unfold dstr_concat_char _da_insert da_length
  by_cases he : d.length = d.capacity
  · rw [if_pos he]
    obtain ⟨dr, hr⟩ := da_reserve_true_total junk d 1
    rw [hr]
    obtain ⟨hl, hcap, hcap2, -, -, hdata⟩ := da_reserve_spec hr
    refine ⟨_, rfl, ?_, ?_, ?_, ?_⟩
    · unfold Valid
      simp only []
      omega
    · unfold TermInv
      simp only []
      refine ⟨by omega, ?_⟩
      rw [if_neg (by omega)]
      rw [if_pos (by omega)]
      have : dr.length + 1 - 1 - 1 = d.length - 1 := by omega
      rw [this, hdata _ (by omega), h0]
    · simp only []
      omega
    · apply textOf_eq
      · simp only [dstr_length, da_length, textOf, List.length_append,
          List.length_map, List.length_range, List.length_cons,
          List.length_nil]
        omega
      · intro i hi
        simp only [textOf, List.length_append, List.length_map,
          List.length_range, List.length_cons, List.length_nil,
          dstr_length, da_length] at hi
        simp only []
        have hlen2 : (textOf d).length = d.length - 1 := by
          rw [textOf_length]
          simp only [dstr_length, da_length]
        by_cases hie : i = d.length - 1
        · rw [if_pos (by omega)]
          rw [List.getElem_append_right (by omega)]
          have hz : i - (textOf d).length = 0 := by omega
          simp [hz]
        · rw [if_neg (by omega)]
          rw [if_neg (by omega)]
          have hlt : i < (textOf d).length := by omega
          rw [List.getElem_append_left hlt]
          rw [textOf_getElem hlt]
          exact hdata i (by omega)
  · rw [if_neg he]
    unfold Valid at hv
    refine ⟨_, rfl, ?_, ?_, ?_, ?_⟩
    · unfold Valid
      simp only []
      omega
    · unfold TermInv
      simp only []
      refine ⟨by omega, ?_⟩
      rw [if_neg (by omega)]
      rw [if_pos (by omega)]
      have : d.length + 1 - 1 - 1 = d.length - 1 := by omega
      rw [this, h0]
    · simp only []
    · apply textOf_eq
      · simp only [dstr_length, da_length, textOf, List.length_append,
          List.length_map, List.length_range, List.length_cons,
          List.length_nil]
        omega
      · intro i hi
        simp only [textOf, List.length_append, List.length_map,
          List.length_range, List.length_cons, List.length_nil,
          dstr_length, da_length] at hi
        simp only []
        have hlen2 : (textOf d).length = d.length - 1 := by
          rw [textOf_length]
          simp only [dstr_length, da_length]
        by_cases hie : i = d.length - 1
        · rw [if_pos (by omega)]
          rw [List.getElem_append_right (by omega)]
          have hz : i - (textOf d).length = 0 := by omega
          simp [hz]
        · rw [if_neg (by omega)]
          rw [if_neg (by omega)]
          have hlt : i < (textOf d).length := by omega
          rw [List.getElem_append_left hlt]
          rw [textOf_getElem hlt]

theorem da_concat_spec {ok : Bool} {junk : Nat → α} {dest d' : Darray α}
    {src : Nat → α} {n : Nat} (h : da_concat ok junk dest src n = .ok d') :
    d'.length = dest.length + n ∧
    (∀ i, i < dest.length → i < dest.capacity → d'.data i = dest.data i) ∧
    (∀ j, j < n → d'.data (dest.length + j) = src j) := by
  simp only [da_concat, da_length] at h
  cases hr : da_reserve ok junk dest n with
  | error e => rw [hr] at h; simp at h
  | ok dr =>
    rw [hr] at h
    simp only [Except.ok.injEq] at h
    subst h
    obtain ⟨hl, hcap, hcap2, -, -, hdata⟩ := da_reserve_spec hr
    refine ⟨by simp only []; omega, fun i hi hic => ?_, fun j hj => ?_⟩
    · simp only []
      rw [if_neg (by omega)]
      exact hdata i hic
    · simp only []
      rw [if_pos (by omega)]
      congr 1
      omega

theorem da_concat_true_total (junk : Nat → α) (dest : Darray α)
    (src : Nat → α) (n : Nat) :
    ∃ d', da_concat true junk dest src n = .ok d' := by
  simp only [da_concat]
  obtain ⟨dr, hr⟩ := da_reserve_true_total junk dest n
  rw [hr]
  exact ⟨_, rfl⟩

theorem dstr_reassign_empty_spec (junk : Nat → Nat) (d : Darray Nat) :
    ∃ d', dstr_reassign_empty true junk d = some d' ∧ Valid d' ∧
      TermInv d' ∧ textOf d' = [] := by
  simp only [dstr_reassign_empty]
  obtain ⟨d1, h1⟩ :=
    da_concat_true_total junk { d with length := 0 } (cstrFn []) 1
  rw [h1]
  obtain ⟨hl, hp, hvals⟩ := da_concat_spec h1
  simp only [Nat.zero_add] at hl hvals
  refine ⟨d1, rfl, valid_da_concat h1, ⟨by omega, ?_⟩, ?_⟩
  · have hx := hvals 0 (by omega)
    rw [show d1.length - 1 = ({ d with length := 0 } : Darray Nat).length + 0
      from by simp only []; omega]
    rw [hx]
    rfl
  · apply textOf_eq
    · simp only [dstr_length, da_length, List.length_nil]
      omega
    · intro i hi
      exact absurd hi (by simp)

theorem dstr_reassign_cstr_spec (junk : Nat → Nat) (d : Darray Nat)
    (src : List Nat) :
    ∃ d', dstr_reassign_cstr true junk d src = some d' ∧ Valid d' ∧
      TermInv d' ∧ textOf d' = src := by
  simp only [dstr_reassign_cstr]
  obtain ⟨d1, h1⟩ := da_concat_true_total junk { d with length := 0 }
    (cstrFn src) (src.length + 1)
  rw [h1]
  obtain ⟨hl, hp, hvals⟩ := da_concat_spec h1
  simp only [] at hl hvals
  simp only [Nat.zero_add] at hl hvals
  refine ⟨d1, rfl, valid_da_concat h1, ⟨by omega, ?_⟩, ?_⟩
  · have hx := hvals src.length (by omega)
    rw [show d1.length - 1 = src.length from by omega]
    rw [hx]
    unfold cstrFn
    rw [List.getD_eq_default]
    exact Nat.le_refl _
  · apply textOf_eq
    · simp only [dstr_length, da_length]
      omega
    · intro i hi
      have hx := hvals i (by omega)
      rw [hx]
      unfold cstrFn
      exact List.getD_eq_getElem src 0 hi

theorem dstr_reassign_dstr_spec (junk : Nat → Nat) (d src : Darray Nat)
    (hts : TermInv src) :
    ∃ d', dstr_reassign_dstr true junk d src = some d' ∧ Valid d' ∧
      TermInv d' ∧ textOf d' = textOf src := by
  simp only [dstr_reassign_dstr]
  obtain ⟨d1, h1⟩ := da_concat_true_total junk { d with length := 0 }
    src.data (da_length src)
  rw [h1]
  obtain ⟨hl, hp, hvals⟩ := da_concat_spec h1
  simp only [] at hl hvals
  simp only [Nat.zero_add, da_length] at hl hvals
  obtain ⟨hs1, hs0⟩ := hts
  refine ⟨d1, rfl, valid_da_concat h1, ⟨by omega, ?_⟩, ?_⟩
  · have hx := hvals (src.length - 1) (by omega)
    rw [show d1.length - 1 = src.length - 1 from by omega]
    rw [hx, hs0]
  · apply textOf_eq
    · rw [textOf_length]
      simp only [dstr_length, da_length]
      omega
    · intro i hi
      have htl := textOf_length src
      simp only [dstr_length, da_length] at htl
      have hx := hvals i (by omega)
      rw [hx]
      exact (textOf_getElem hi).symm

theorem dstr_reassign_format_spec (junk : Nat → Nat) (d : Darray Nat)
    (rendered : List Nat) :
    ∃ d', dstr_reassign_format true junk d rendered = some d' ∧ Valid d' ∧
      TermInv d' ∧ textOf d' = rendered := by
  simp only [dstr_reassign_format]
  obtain ⟨dr, hr⟩ := da_reserve_true_total junk { d with length := 0 }
    (rendered.length + 1)
  rw [hr]
  obtain ⟨hl, hcap, hcap2, -, -, hdata⟩ := da_reserve_spec hr
  simp only [] at hl hcap
  refine ⟨_, rfl, ?_, ⟨by simp only []; omega, ?_⟩, ?_⟩
  · unfold Valid
    simp only []
    omega
  · simp only []
    rw [if_pos (by omega)]
    unfold cstrFn
    rw [show rendered.length + 1 - 1 = rendered.length from by omega]
    rw [List.getD_eq_default]
    exact Nat.le_refl _
  · apply textOf_eq
    · simp only [dstr_length, da_length]
      omega
    · intro i hi
      simp only []
      rw [if_pos (by omega)]
      unfold cstrFn
      exact List.getD_eq_getElem rendered 0 hi

theorem dstr_concat_cstr_spec (junk : Nat → Nat) (d : Darray Nat)
    (src : List Nat) (hv : Valid d) (ht : TermInv d) :
    ∃ d', dstr_concat_cstr true junk d src = some d' ∧ Valid d' ∧
      TermInv d' ∧ d'.length = d.length + src.length ∧
      textOf d' = textOf d ++ src := by
  simp only [dstr_concat_cstr]
  obtain ⟨dr, hr⟩ := da_reserve_true_total junk d src.length
  rw [hr]
  obtain ⟨hl, hcap, hcap2, -, -, hdata⟩ := da_reserve_spec hr
  obtain ⟨h1, h0⟩ := ht
  have hvc : d.length ≤ d.capacity := hv
  have htl := textOf_length d
  simp only [dstr_length, da_length] at htl
  refine ⟨_, rfl, ?_, ⟨?_, ?_⟩, ?_, ?_⟩
  · unfold Valid
    simp only []
    omega
  · simp only []
    omega
  · simp only []
    have hcnd : dstr_length d ≤ dr.length + src.length - 1 ∧
        dr.length + src.length - 1 < dstr_length d + src.length + 1 := by
      simp only [dstr_length, da_length]
      omega
    rw [if_pos hcnd]
    have hidx : dr.length + src.length - 1 - dstr_length d = src.length := by
      simp only [dstr_length, da_length]
      omega
    rw [hidx]
    unfold cstrFn
    rw [List.getD_eq_default]
    exact Nat.le_refl _
  · simp only []
    omega
  · apply textOf_eq
    · simp only [dstr_length, da_length, List.length_append]
      omega
    · intro i hi
      simp only [List.length_append] at hi
      simp only []
      by_cases hcase : i < d.length - 1
      · have hnc : ¬(dstr_length d ≤ i ∧
            i < dstr_length d + src.length + 1) := by
          simp only [dstr_length, da_length]
          omega
        rw [if_neg hnc]
        have hlt : i < (textOf d).length := by omega
        rw [List.getElem_append_left hlt]
        rw [textOf_getElem hlt]
        exact hdata i (by omega)
      · have hcnd : dstr_length d ≤ i ∧
            i < dstr_length d + src.length + 1 := by
          simp only [dstr_length, da_length]
          omega
        rw [if_pos hcnd]
        have hge : (textOf d).length ≤ i := by omega
        rw [List.getElem_append_right hge]
        have hidx : i - dstr_length d = i - (textOf d).length := by
          simp only [dstr_length, da_length]
          omega
        rw [hidx]
        unfold cstrFn
        exact List.getD_eq_getElem src 0 (by omega)

theorem dstr_concat_dstr_spec (junk : Nat → Nat) (d src : Darray Nat)
    (hv : Valid d) (ht : TermInv d) (hts : TermInv src) :
    ∃ d', dstr_concat_dstr true junk d src = some d' ∧ Valid d' ∧
      TermInv d' ∧ d'.length = d.length + dstr_length src ∧
      textOf d' = textOf d ++ textOf src := by
  simp only [dstr_concat_dstr]
  obtain ⟨dr, hr⟩ := da_reserve_true_total junk d (dstr_length src)
  rw [hr]
  obtain ⟨hl, hcap, hcap2, -, -, hdata⟩ := da_reserve_spec hr
  obtain ⟨h1, h0⟩ := ht
  obtain ⟨hs1, hs0⟩ := hts
  have hvc : d.length ≤ d.capacity := hv
  simp only [dstr_length, da_length] at hcap
  have htl := textOf_length d
  simp only [dstr_length, da_length] at htl
  have htls := textOf_length src
  simp only [dstr_length, da_length] at htls
  refine ⟨_, rfl, ?_, ⟨?_, ?_⟩, ?_, ?_⟩
  · unfold Valid
    simp only [dstr_length, da_length]
    omega
  · simp only [dstr_length, da_length]
    omega
  · simp only [dstr_length, da_length]
    have hcnd : d.length - 1 ≤ dr.length + (src.length - 1) - 1 ∧
        dr.length + (src.length - 1) - 1 < d.length - 1 + (src.length - 1) + 1 := by
      omega
    rw [if_pos hcnd]
    have hidx : dr.length + (src.length - 1) - 1 - (d.length - 1) =
        src.length - 1 := by
      omega
    rw [hidx]
    exact hs0
  · simp only [dstr_length, da_length]
    omega
  · apply textOf_eq
    · simp only [dstr_length, da_length, List.length_append]
      omega
    · intro i hi
      simp only [List.length_append] at hi
      simp only [dstr_length, da_length]
      by_cases hcase : i < d.length - 1
      · have hnc : ¬(d.length - 1 ≤ i ∧
            i < d.length - 1 + (src.length - 1) + 1) := by
          omega
        rw [if_neg hnc]
        have hlt : i < (textOf d).length := by omega
        rw [List.getElem_append_left hlt]
        rw [textOf_getElem hlt]
        exact hdata i (by omega)
      · have hcnd : d.length - 1 ≤ i ∧
            i < d.length - 1 + (src.length - 1) + 1 := by
          omega
        rw [if_pos hcnd]
        have hge : (textOf d).length ≤ i := by omega
        rw [List.getElem_append_right hge]
        have hsi : i - (textOf d).length < (textOf src).length := by omega
        rw [textOf_getElem hsi]
        congr 1
        omega

theorem dstr_concat_format_spec (junk : Nat → Nat) (d : Darray Nat)
    (rendered : List Nat) (hv : Valid d) (ht : TermInv d) :
    ∃ d', dstr_concat_format true junk d rendered = some d' ∧ Valid d' ∧
      TermInv d' ∧ textOf d' = textOf d ++ rendered := by
  simp only [dstr_concat_format]
  obtain ⟨dr, hr⟩ := da_reserve_true_total junk d rendered.length
  rw [hr]
  obtain ⟨hl, hcap, hcap2, -, -, hdata⟩ := da_reserve_spec hr
  obtain ⟨h1, h0⟩ := ht
  have hvc : d.length ≤ d.capacity := hv
  have htl := textOf_length d
  simp only [dstr_length, da_length] at htl
  refine ⟨_, rfl, ?_, ⟨?_, ?_⟩, ?_⟩
  · unfold Valid
    simp only []
    omega
  · simp only []
    omega
  · simp only []
    have hcnd : dstr_length d ≤ dr.length + rendered.length - 1 ∧
        dr.length + rendered.length - 1 <
          dstr_length d + rendered.length + 1 := by
      simp only [dstr_length, da_length]
      omega
    rw [if_pos hcnd]
    have hidx : dr.length + rendered.length - 1 - dstr_length d =
        rendered.length := by
      simp only [dstr_length, da_length]
      omega
    rw [hidx]
    unfold cstrFn
    rw [List.getD_eq_default]
    exact Nat.le_refl _
  · apply textOf_eq
    · simp only [dstr_length, da_length, List.length_append]
      omega
    · intro i hi
      simp only [List.length_append] at hi
      simp only []
      by_cases hcase : i < d.length - 1
      · have hnc : ¬(dstr_length d ≤ i ∧
            i < dstr_length d + rendered.length + 1) := by
          simp only [dstr_length, da_length]
          omega
        rw [if_neg hnc]
        have hlt : i < (textOf d).length := by omega
        rw [List.getElem_append_left hlt]
        rw [textOf_getElem hlt]
        exact hdata i (by omega)
      · have hcnd : dstr_length d ≤ i ∧
            i < dstr_length d + rendered.length + 1 := by
          simp only [dstr_length, da_length]
          omega
        rw [if_pos hcnd]
        have hge : (textOf d).length ≤ i := by omega
        rw [List.getElem_append_right hge]
        have hidx : i - dstr_length d = i - (textOf d).length := by
          simp only [dstr_length, da_length]
          omega
        rw [hidx]
        unfold cstrFn
        exact List.getD_eq_getElem rendered 0 (by omega)

theorem getdelimLoop_byte_spec (junk : Nat → Nat) (b : Nat) :
    ∀ (stream : List Nat) (d : Darray Nat), Valid d → TermInv d →
      (b ∈ stream →
        ∃ d', getdelimLoop true junk (b : Int) d stream =
            some (d', (stream.dropWhile (fun x => x != b)).tail) ∧
          Valid d' ∧ TermInv d' ∧
          textOf d' = textOf d ++ stream.takeWhile (fun x => x != b)) ∧
      (b ∉ stream → getdelimLoop true junk (b : Int) d stream = none) := by
  intro stream
  induction stream with
  | nil =>
    intro d hv ht
    constructor
    · intro hmem
      exact absurd hmem (by simp)
    · intro _
      unfold getdelimLoop
      rw [if_neg (by omega)]
  | cons x rest ih =>
    intro d hv ht
    by_cases hx : x = b
    · subst hx
      constructor
      · intro _
        refine ⟨d, ?_, hv, ht, ?_⟩
        · unfold getdelimLoop
          rw [if_pos rfl]
          rw [List.dropWhile_cons]
          simp
        · rw [List.takeWhile_cons]
          simp
      · intro hmem
        exact absurd (by simp) hmem
    · have hxb : ¬((x : Int) = (b : Int)) := by
        simp only [Nat.cast_inj]
        exact hx
      obtain ⟨d1, hc, hv1, ht1, -, htext⟩ :=
        dstr_concat_char_spec junk d x hv ht
      constructor
      · intro hmem
        have hmem2 : b ∈ rest := by
          cases hmem with
          | head => exact absurd rfl hx
          | tail _ h => exact h
        obtain ⟨d2, hl2, hv2, ht2, htext2⟩ := ((ih d1 hv1 ht1).1) hmem2
        refine ⟨d2, ?_, hv2, ht2, ?_⟩
        · unfold getdelimLoop
          rw [if_neg hxb, hc]
          rw [List.dropWhile_cons]
          rw [if_pos (by simp [hx])]
          exact hl2
        · rw [List.takeWhile_cons]
          rw [if_pos (by simp [hx])]
          rw [htext2, htext]
          simp
      · intro hmem
        have hmem2 : b ∉ rest := fun h => hmem (List.mem_cons_of_mem x h)
        unfold getdelimLoop
        rw [if_neg hxb, hc]
        exact (ih d1 hv1 ht1).2 hmem2

theorem getdelimLoop_eof_spec (junk : Nat → Nat) :
    ∀ (stream : List Nat) (d : Darray Nat), Valid d → TermInv d →
      ∃ d', getdelimLoop true junk (-1) d stream = some (d', []) ∧
        Valid d' ∧ TermInv d' ∧ textOf d' = textOf d ++ stream := by
  intro stream
  induction stream with
  | nil =>
    intro d hv ht
    refine ⟨d, ?_, hv, ht, by simp⟩
    unfold getdelimLoop
    rw [if_pos rfl]
  | cons x rest ih =>
    intro d hv ht
    obtain ⟨d1, hc, hv1, ht1, -, htext⟩ := dstr_concat_char_spec junk d x hv ht
    obtain ⟨d2, hl2, hv2, ht2, htext2⟩ := ih d1 hv1 ht1
    refine ⟨d2, ?_, hv2, ht2, ?_⟩
    · unfold getdelimLoop
      rw [if_neg (by omega), hc]
      exact hl2
    · rw [htext2, htext]
      simp

/-- C9: `dstr_getdelim` first reassigns the target dstring to the empty
string, then appends bytes read from the stream one at a time, stopping
with the delimiter consumed but not stored in the result; if the stream
ends before the delimiter is seen it returns the failure sentinel, except
when the delimiter is the end-of-stream value `EOF` itself, in which case
reading up to end-of-stream succeeds with the whole stream as text. -/
theorem C9_getdelim_spec (junk : Nat → Nat) (d : Darray Nat)
    (stream : List Nat) (b : Nat) :
    (b ∈ stream →
      ∃ d', dstr_getdelim true junk d (b : Int) stream =
          some (d', (stream.dropWhile (fun x => x != b)).tail) ∧
        textOf d' = stream.takeWhile (fun x => x != b) ∧ TermInv d') ∧
    (b ∉ stream → dstr_getdelim true junk d (b : Int) stream = none) ∧
    (∃ d', dstr_getdelim true junk d (-1) stream = some (d', []) ∧
      textOf d' = stream ∧ TermInv d') := by
  obtain ⟨d0, h0, hv0, ht0, htext0⟩ := dstr_reassign_empty_spec junk d
  refine ⟨fun hmem => ?_, fun hmem => ?_, ?_⟩
  · obtain ⟨d', hl, hv', ht', htext'⟩ :=
      ((getdelimLoop_byte_spec junk b stream d0 hv0 ht0).1) hmem
    refine ⟨d', ?_, ?_, ht'⟩
    · unfold dstr_getdelim
      rw [h0]
      exact hl
    · rw [htext', htext0]
      simp
  · unfold dstr_getdelim
    rw [h0]
    exact (getdelimLoop_byte_spec junk b stream d0 hv0 ht0).2 hmem
  · obtain ⟨d', hl, hv', ht', htext'⟩ :=
      getdelimLoop_eof_spec junk stream d0 hv0 ht0
    refine ⟨d', ?_, ?_, ht'⟩
    · unfold dstr_getdelim
      rw [h0]
      exact hl
    · rw [htext', htext0]
      simp

theorem C9_getdelim_spec_witness :
    (∃ d', dstr_getdelim true (fun _ => 0) (ofText [97] 10)
        ((10 : Nat) : Int) [104, 105, 10, 120] = some (d', [120]) ∧
      textOf d' = [104, 105] ∧ TermInv d') ∧
    dstr_getdelim true (fun _ => 0) (ofText [97] 10) ((11 : Nat) : Int)
      [104, 105] = none := by
  constructor
  · obtain ⟨d', h, ht, hti⟩ :=
      (C9_getdelim_spec (fun _ => 0) (ofText [97] 10) [104, 105, 10, 120]
        10).1 (by decide)
    refine ⟨d', ?_, ?_, hti⟩
    · rw [h]
      rfl
    · rw [ht]
      rfl
  · exact (C9_getdelim_spec (fun _ => 0) (ofText [97] 10) [104, 105]
      11).2.1 (by decide)

theorem takeWhile_length_le (p : Nat → Bool) :
    ∀ l : List Nat, (l.takeWhile p).length ≤ l.length := by
  intro l
  induction l with
  | nil => simp
  | cons x t ih =>
    rw [List.takeWhile_cons]
    by_cases hp : p x
    · rw [if_pos hp]
      simp only [List.length_cons]
      omega
    · rw [if_neg hp]
      simp

theorem takeWhile_length_le_of_not (p : Nat → Bool) :
    ∀ (l : List Nat) (k : Nat) (hk : k < l.length), p (l[k]) = false →
      (l.takeWhile p).length ≤ k := by
  intro l
  induction l with
  | nil => intro k hk; simp at hk
  | cons x t ih =>
    intro k hk hp
    rw [List.takeWhile_cons]
    cases k with
    | zero =>
      simp only [List.getElem_cons_zero] at hp
      rw [if_neg (by simp [hp])]
      simp
    | succ k =>
      by_cases hx : p x
      · rw [if_pos hx]
        simp only [List.length_cons]
        have := ih k (by simpa using hk) (by simpa using hp)
        omega
      · rw [if_neg hx]
        simp

theorem cstrOf_length_le {d : Darray Nat} (ht : TermInv d) :
    (cstrOf d).length ≤ d.length - 1 := by
  obtain ⟨h1, h0⟩ := ht
  unfold cstrOf
  apply takeWhile_length_le_of_not
  · simp only [trackedBytes, List.getElem_map, List.getElem_range, h0]
    rfl
  · simp only [trackedBytes, List.length_map, List.length_range]
    omega

theorem strstrIdx_le {hay needle : List Nat} {loc : Nat}
    (h : strstrIdx hay needle = some loc) :
    loc + needle.length ≤ hay.length := by
  unfold strstrIdx at h
  have hp := List.find?_some h
  have hmem := List.mem_of_find?_eq_some h
  have hloc : loc < hay.length + 1 := by
    simpa using hmem
  have heq : (hay.drop loc).take needle.length = needle := by
    simpa using hp
  have hlen := congrArg List.length heq
  simp only [List.length_take, List.length_drop] at hlen
  omega

theorem casestr_loop_le (needle hay : List Nat) :
    ∀ (hrest nrest : List Nat) (start loc : Nat),
      start + (needle.length - nrest.length) + hrest.length = hay.length →
      nrest.length ≤ needle.length →
      _da_strcasestr_loop needle start hrest nrest = some loc →
      loc + needle.length ≤ hay.length := by
  intro hrest
  induction hrest with
  | nil =>
    intro nrest start loc h1 h2 hl
    cases nrest with
    | nil =>
      unfold _da_strcasestr_loop at hl
      simp only [Option.some.injEq] at hl
      subst hl
      simp only [List.length_nil] at h1
      omega
    | cons n0 nt => simp [_da_strcasestr_loop] at hl
  | cons h0 htail ih =>
    intro nrest start loc h1 h2 hl
    cases nrest with
    | nil =>
      unfold _da_strcasestr_loop at hl
      simp only [Option.some.injEq] at hl
      subst hl
      simp only [List.length_nil] at h1
      omega
    | cons n0 nt =>
      simp only [_da_strcasestr_loop] at hl
      by_cases hm : tolowerByte h0 ≠ tolowerByte n0
      · rw [if_pos hm] at hl
        apply ih needle (start + (needle.length - (n0 :: nt).length) + 1)
          loc ?_ (Nat.le_refl _) hl
        simp only [List.length_cons] at h1 ⊢
        omega
      · rw [if_neg hm] at hl
        apply ih nt start loc ?_ ?_ hl
        · simp only [List.length_cons] at h1 h2 ⊢
          omega
        · simp only [List.length_cons] at h2
          omega

theorem casestr_le {hay needle : List Nat} {loc : Nat}
    (h : _da_strcasestr hay needle = some loc) :
    loc + needle.length ≤ hay.length := by
  unfold _da_strcasestr at h
  apply casestr_loop_le needle hay hay needle 0 loc ?_ (Nat.le_refl _) h
  simp

theorem replace_step_spec {ok : Bool} {junk : Nat → Nat} {d d2 : Darray Nat}
    {ss ns : List Nat} {loc : Nat} (hv : Valid d) (ht : TermInv d)
    (hfind : loc + ss.length ≤ (cstrOf d).length)
    (hins : da_insert_arr ok junk (da_remove_arr d loc ss.length) loc
      (cstrFn ns) ns.length = .ok d2) :
    Valid d2 ∧ TermInv d2 := by
  obtain ⟨h1, h0⟩ := ht
  have hvc : d.length ≤ d.capacity := hv
  have hcle := cstrOf_length_le ⟨h1, h0⟩
  have hbound : loc + ss.length ≤ d.length - 1 := Nat.le_trans hfind hcle
  have ht1 : TermInv (da_remove_arr d loc ss.length) := by
    unfold TermInv da_remove_arr
    simp only []
    refine ⟨by omega, ?_⟩
    rw [if_pos (by omega)]
    rw [show d.length - ss.length - 1 + ss.length = d.length - 1 from by omega]
    exact h0
  have hv1 : Valid (da_remove_arr d loc ss.length) := valid_da_remove_arr hv
  refine ⟨valid_da_insert_arr hins, ?_⟩
  simp only [da_insert_arr] at hins
  cases hr : da_reserve ok junk (da_remove_arr d loc ss.length) ns.length with
  | error e => rw [hr] at hins; simp at hins
  | ok dr =>
    rw [hr] at hins
    simp only [Except.ok.injEq] at hins
    subst hins
    obtain ⟨hl, hcap, hcap2, -, -, hdata⟩ := da_reserve_spec hr
    have hl1 : (da_remove_arr d loc ss.length).length = d.length - ss.length := by
      unfold da_remove_arr
      simp only []
    have hv1c : (da_remove_arr d loc ss.length).length ≤
        (da_remove_arr d loc ss.length).capacity := hv1
    unfold TermInv
    simp only []
    refine ⟨by omega, ?_⟩
    rw [if_neg (by omega)]
    rw [if_pos (by omega)]
    rw [show dr.length + ns.length - 1 - ns.length = dr.length - 1 from by
      omega]
    rw [hdata (dr.length - 1) (by omega)]
    rw [hl]
    exact ht1.2

theorem replace_loop_inv {ok : Bool} {junk : Nat → Nat} {ss ns : List Nat} :
    ∀ {fuel : Nat} {d d' : Darray Nat}, Valid d → TermInv d →
      dstrReplaceAllLoop ok junk ss ns fuel d = some (some d') →
      Valid d' ∧ TermInv d' := by
  intro fuel
  induction fuel with
  | zero => intro d d' _ _ h; simp [dstrReplaceAllLoop] at h
  | succ fuel ih =>
    intro d d' hv ht h
    unfold dstrReplaceAllLoop at h
    cases hf : strstrIdx (cstrOf d) ss with
    | none =>
      rw [hf] at h
      simp only [Option.some.injEq] at h
      exact h ▸ ⟨hv, ht⟩
    | some loc =>
      rw [hf] at h
      simp only [] at h
      cases hi : da_insert_arr ok junk (da_remove_arr d loc ss.length) loc
          (cstrFn ns) ns.length with
      | error e => rw [hi] at h; simp at h
      | ok d2 =>
        rw [hi] at h
        obtain ⟨hv2, ht2⟩ := replace_step_spec hv ht (strstrIdx_le hf) hi
        exact ih hv2 ht2 h

theorem replace_case_loop_inv {ok : Bool} {junk : Nat → Nat}
    {ss ns : List Nat} :
    ∀ {fuel : Nat} {d d' : Darray Nat}, Valid d → TermInv d →
      dstrReplaceAllCaseLoop ok junk ss ns fuel d = some (some d') →
      Valid d' ∧ TermInv d' := by
  intro fuel
  induction fuel with
  | zero => intro d d' _ _ h; simp [dstrReplaceAllCaseLoop] at h
  | succ fuel ih =>
    intro d d' hv ht h
    unfold dstrReplaceAllCaseLoop at h
    cases hf : _da_strcasestr (cstrOf d) ss with
    | none =>
      rw [hf] at h
      simp only [Option.some.injEq] at h
      exact h ▸ ⟨hv, ht⟩
    | some loc =>
      rw [hf] at h
      simp only [] at h
      cases hi : da_insert_arr ok junk (da_remove_arr d loc ss.length) loc
          (cstrFn ns) ns.length with
      | error e => rw [hi] at h; simp at h
      | ok d2 =>
        rw [hi] at h
        obtain ⟨hv2, ht2⟩ := replace_step_spec hv ht (casestr_le hf) hi
        exact ih hv2 ht2 h

theorem terminv_dstr_trim {d d' : Darray Nat} (ht : TermInv d)
    (h : dstr_trim d = some d') : TermInv d' := by
  obtain ⟨h1, h0⟩ := ht
  simp only [dstr_trim] at h
  by_cases g1 : ((trackedBytes d).takeWhile isspaceByte).length = d.length
  · rw [if_pos g1] at h
    simp at h
  · rw [if_neg g1] at h
    have hlead_le : ((trackedBytes d).takeWhile isspaceByte).length ≤
        d.length := by
      have := takeWhile_length_le isspaceByte (trackedBytes d)
      simpa [trackedBytes] using this
    set lead := ((trackedBytes d).takeWhile isspaceByte).length with hlead
    have ht1 : TermInv (da_remove_arr d 0 lead) := by
      unfold TermInv da_remove_arr
      simp only []
      refine ⟨by omega, ?_⟩
      rw [if_pos (by omega)]
      rw [show d.length - lead - 1 + lead = d.length - 1 from by omega]
      exact h0
    set d1 := da_remove_arr d 0 lead with hd1
    by_cases g2 : dstr_length d1 = 0
    · rw [if_pos g2] at h
      simp at h
    · rw [if_neg g2] at h
      have hd1len : d1.length = d.length - lead := by
        rw [hd1]
        unfold da_remove_arr
        simp only []
      set trail := ((((List.range (dstr_length d1)).map d1.data).reverse).takeWhile
        isspaceByte).length with htrail
      by_cases g3 : trail = dstr_length d1
      · rw [if_pos g3] at h
        simp at h
      · rw [if_neg g3] at h
        simp only [Option.some.injEq] at h
        subst h
        have htrail_le : trail ≤ dstr_length d1 := by
          rw [htrail]
          have := takeWhile_length_le isspaceByte
            (((List.range (dstr_length d1)).map d1.data).reverse)
          simpa using this
        simp only [dstr_length, da_length] at g2 g3 htrail_le
        unfold TermInv da_remove_arr
        simp only [dstr_length, da_length]
        refine ⟨by omega, ?_⟩
        rw [if_pos (by omega)]
        rw [show d1.length - trail - 1 + trail = d1.length - 1 from by omega]
        exact ht1.2

/-- C8: for every dstring the tracked length counts exactly one trailing
zero terminator that is always present and always last:
`dstr_length h = da_length h - 1`, and the terminator invariant (length at
least 1 and the byte at `length - 1` zero) is re-established by every
dstring append (`concat_char/cstr/dstr/format`), replace
(`replace_all`, `replace_all_case`), reassign
(`reassign_empty/cstr/dstr/format`) and `trim` call that returns a
non-failure handle, on structurally valid instances that satisfy it on
entry. -/
theorem C8_terminator_invariant (ok : Bool) (junk : Nat → Nat)
    (d d' src : Darray Nat) (s rendered ss ns : List Nat) (c fuel : Nat) :
    (dstr_length d = da_length d - 1) ∧
    (Valid d → TermInv d → dstr_concat_char true junk d c = some d' →
      TermInv d') ∧
    (Valid d → TermInv d → dstr_concat_cstr true junk d s = some d' →
      TermInv d') ∧
    (Valid d → TermInv d → TermInv src →
      dstr_concat_dstr true junk d src = some d' → TermInv d') ∧
    (Valid d → TermInv d → dstr_concat_format true junk d rendered = some d' →
      TermInv d') ∧
    (dstr_reassign_empty true junk d = some d' → TermInv d') ∧
    (dstr_reassign_cstr true junk d s = some d' → TermInv d') ∧
    (TermInv src → dstr_reassign_dstr true junk d src = some d' →
      TermInv d') ∧
    (dstr_reassign_format true junk d rendered = some d' → TermInv d') ∧
    (Valid d → TermInv d →
      dstr_replace_all ok junk fuel d ss ns = some (some d') → TermInv d') ∧
    (Valid d → TermInv d →
      dstr_replace_all_case ok junk fuel d ss ns = some (some d') →
      TermInv d') ∧
    (TermInv d → dstr_trim d = some d' → TermInv d') := by
  refine ⟨rfl, ?_, ?_, ?_, ?_, ?_, ?_, ?_, ?_, ?_, ?_, ?_⟩
  · intro hv ht h
    obtain ⟨d2, h2, -, ht2, -, -⟩ := dstr_concat_char_spec junk d c hv ht
    rw [h2] at h
    injection h with h
    exact h ▸ ht2
  · intro hv ht h
    obtain ⟨d2, h2, -, ht2, -, -⟩ := dstr_concat_cstr_spec junk d s hv ht
    rw [h2] at h
    injection h with h
    exact h ▸ ht2
  · intro hv ht hts h
    obtain ⟨d2, h2, -, ht2, -, -⟩ :=
      dstr_concat_dstr_spec junk d src hv ht hts
    rw [h2] at h
    injection h with h
    exact h ▸ ht2
  · intro hv ht h
    obtain ⟨d2, h2, -, ht2, -⟩ :=
      dstr_concat_format_spec junk d rendered hv ht
    rw [h2] at h
    injection h with h
    exact h ▸ ht2
  · intro h
    obtain ⟨d2, h2, -, ht2, -⟩ := dstr_reassign_empty_spec junk d
    rw [h2] at h
    injection h with h
    exact h ▸ ht2
  · intro h
    obtain ⟨d2, h2, -, ht2, -⟩ := dstr_reassign_cstr_spec junk d s
    rw [h2] at h
    injection h with h
    exact h ▸ ht2
  · intro hts h
    obtain ⟨d2, h2, -, ht2, -⟩ := dstr_reassign_dstr_spec junk d src hts
    rw [h2] at h
    injection h with h
    exact h ▸ ht2
  · intro h
    obtain ⟨d2, h2, -, ht2, -⟩ := dstr_reassign_format_spec junk d rendered
    rw [h2] at h
    injection h with h
    exact h ▸ ht2
  · intro hv ht h
    exact (replace_loop_inv hv ht h).2
  · intro hv ht h
    exact (replace_case_loop_inv hv ht h).2
  · intro ht h
    exact terminv_dstr_trim ht h

def c8d : Darray Nat := ofText [97] 10

def c8char : Darray Nat := (dstr_concat_char true (fun _ => 0) c8d 66).getD c8d

def c8cstr : Darray Nat :=
  (dstr_concat_cstr true (fun _ => 0) c8d [120]).getD c8d

def c8dsrc : Darray Nat := ofText [98, 99] 10

def c8dstr : Darray Nat :=
  (dstr_concat_dstr true (fun _ => 0) c8d c8dsrc).getD c8d

def c8fmt : Darray Nat :=
  (dstr_concat_format true (fun _ => 0) c8d [121]).getD c8d

def c8re : Darray Nat := (dstr_reassign_empty true (fun _ => 0) c8d).getD c8d

def c8rc : Darray Nat :=
  (dstr_reassign_cstr true (fun _ => 0) c8d [120]).getD c8d

def c8rd : Darray Nat :=
  (dstr_reassign_dstr true (fun _ => 0) c8d c8dsrc).getD c8d

def c8rf : Darray Nat :=
  (dstr_reassign_format true (fun _ => 0) c8d [121]).getD c8d

def c8rep : Darray Nat :=
  ((dstr_replace_all true (fun _ => 0) 5 c8d [97] [122]).join).getD c8d

def c8repc : Darray Nat :=
  ((dstr_replace_all_case true (fun _ => 0) 5 c8d [65] [122]).join).getD c8d

def c8trim : Darray Nat := (dstr_trim (ofText [32, 97, 32] 10)).getD c8d

theorem C8_terminator_invariant_witness :
    TermInv c8char ∧ TermInv c8cstr ∧ TermInv c8dstr ∧ TermInv c8fmt ∧
    TermInv c8re ∧ TermInv c8rc ∧ TermInv c8rd ∧ TermInv c8rf ∧
    TermInv c8rep ∧ TermInv c8repc ∧ TermInv c8trim := by
  have hv : Valid c8d := by decide
  have ht : TermInv c8d := by decide
  have hts : TermInv c8dsrc := by decide
  have httr : TermInv (ofText [32, 97, 32] 10) := by decide
  refine ⟨?_, ?_, ?_, ?_, ?_, ?_, ?_, ?_, ?_, ?_, ?_⟩
  · exact (C8_terminator_invariant true (fun _ => 0) c8d c8char c8dsrc [120]
      [121] [97] [122] 66 5).2.1 hv ht rfl
  · exact (C8_terminator_invariant true (fun _ => 0) c8d c8cstr c8dsrc [120]
      [121] [97] [122] 66 5).2.2.1 hv ht rfl
  · exact (C8_terminator_invariant true (fun _ => 0) c8d c8dstr c8dsrc [120]
      [121] [97] [122] 66 5).2.2.2.1 hv ht hts rfl
  · exact (C8_terminator_invariant true (fun _ => 0) c8d c8fmt c8dsrc [120]
      [121] [97] [122] 66 5).2.2.2.2.1 hv ht rfl
  · exact (C8_terminator_invariant true (fun _ => 0) c8d c8re c8dsrc [120]
      [121] [97] [122] 66 5).2.2.2.2.2.1 rfl
  · exact (C8_terminator_invariant true (fun _ => 0) c8d c8rc c8dsrc [120]
      [121] [97] [122] 66 5).2.2.2.2.2.2.1 rfl
  · exact (C8_terminator_invariant true (fun _ => 0) c8d c8rd c8dsrc [120]
      [121] [97] [122] 66 5).2.2.2.2.2.2.2.1 hts rfl
  · exact (C8_terminator_invariant true (fun _ => 0) c8d c8rf c8dsrc [120]
      [121] [97] [122] 66 5).2.2.2.2.2.2.2.2.1 rfl
  · exact (C8_terminator_invariant true (fun _ => 0) c8d c8rep c8dsrc [120]
      [121] [97] [122] 66 5).2.2.2.2.2.2.2.2.2.1 hv ht rfl
  · exact (C8_terminator_invariant true (fun _ => 0) c8d c8repc c8dsrc [120]
      [121] [65] [122] 66 5).2.2.2.2.2.2.2.2.2.2.1 hv ht rfl
  · exact (C8_terminator_invariant true (fun _ => 0)
      (ofText [32, 97, 32] 10) c8trim c8dsrc [120]
      [121] [97] [122] 66 5).2.2.2.2.2.2.2.2.2.2.2 httr rfl

theorem strstrIdx_cons_self (a : Nat) (t : List Nat) :
    strstrIdx (a :: t) [a] = some 0 := by
  unfold strstrIdx
  simp only [List.length_cons]
  rw [List.range_succ_eq_map]
  rw [List.find?_cons_of_pos]
  simp

theorem cstrOf_head {d : Darray Nat} (h97 : d.data 0 = 97)
    (hlen : 1 ≤ d.length) : ∃ t, cstrOf d = 97 :: t := by
  unfold cstrOf trackedBytes
  obtain ⟨n, hn⟩ : ∃ n, d.length = n + 1 := ⟨d.length - 1, by omega⟩
  rw [hn, List.range_succ_eq_map]
  simp only [List.map_cons, h97]
  rw [List.takeWhile_cons]
  rw [if_pos (by decide)]
  exact ⟨_, rfl⟩

theorem insert_arr_true_step (junk : Nat → Nat) (d1 : Darray Nat)
    (src : Nat → Nat) (n : Nat) :
    ∃ d2, da_insert_arr true junk d1 0 src n = .ok d2 ∧
      d2.length = d1.length + n ∧ (0 < n → d2.data 0 = src 0) := by
  simp only [da_insert_arr]
  obtain ⟨dr, hr⟩ := da_reserve_true_total junk d1 n
  rw [hr]
  obtain ⟨hl, -, -, -, -, -⟩ := da_reserve_spec hr
  refine ⟨_, rfl, ?_, fun hn => ?_⟩
  · simp only []
    omega
  · simp only []
    rw [if_pos ⟨by omega, by omega⟩]

theorem replace_nonterm (junk : Nat → Nat) :
    ∀ (fuel : Nat) (d : Darray Nat), d.data 0 = 97 → 1 ≤ d.length →
      Valid d → dstrReplaceAllLoop true junk [97] [97, 97] fuel d = none := by
  intro fuel
  induction fuel with
  | zero => intro d _ _ _; rfl
  | succ fuel ih =>
    intro d h97 hlen hv
    unfold dstrReplaceAllLoop
    obtain ⟨t, hct⟩ := cstrOf_head h97 hlen
    rw [hct, strstrIdx_cons_self]
    simp only []
    obtain ⟨d2, hins, hl2, hd2⟩ := insert_arr_true_step junk
      (da_remove_arr d 0 (List.length [97])) (cstrFn [97, 97])
      (List.length [97, 97])
    rw [hins]
    apply ih d2
    · rw [hd2 (by decide)]
      rfl
    · rw [hl2]
      simp only [List.length_cons, List.length_nil]
      omega
    · exact valid_da_insert_arr hins

/-- C1 counterexample: the scan of `dstr_replace_all` does not resume after
the inserted replacement — it restarts from the beginning of the string.
Replacing `"ab"` by `"b"` in `"aab"` yields `"b"` (the occurrence of
`"ab"` created across the spliced boundary is re-matched), while the
spec-modelled scan that resumes immediately after the inserted replacement
(`replaceAllResume`) yields `"ab"`. -/
theorem C1_scan_resume_cex :
    (dstr_replace_all true (fun _ => 0) 10 (ofText [97, 97, 98] 10)
        [97, 98] [98]).map (Option.map textOf) = some (some [98]) ∧
    replaceAllResume [97, 98] [98] 10 [97, 97, 98] 0 = some [97, 98] ∧
    ([98] : List Nat) ≠ [97, 98] := by
  refine ⟨by decide, by decide, by decide⟩

/-- C1 (amended): `dstr_replace_all` (and `dstr_replace_all_case`) replace
occurrences left to right, but after each replacement the scan restarts
from the beginning of the string (`dstr_find` always searches from offset
0), not from the position following the inserted replacement; a
replacement string that contains the search target is therefore re-matched
inside the region just inserted, and the operation does not terminate in
that case: replacing `"a"` by `"aa"` in `"a"` runs out of any amount of
fuel (on `"aab"`/`"ab"`→`"b"` the restarting scan yields `"b"`). -/
theorem C1_replace_all_restarts_scan :
    (dstr_replace_all true (fun _ => 0) 10 (ofText [97, 97, 98] 10)
        [97, 98] [98]).map (Option.map textOf) = some (some [98]) ∧
    (∀ (junk : Nat → Nat) (fuel : Nat),
      dstr_replace_all true junk fuel (ofText [97] 10) [97] [97, 97] =
        none) := by
  constructor
  · decide
  · intro junk fuel
    apply replace_nonterm junk fuel (ofText [97] 10) rfl (by decide)
      (by decide)

example :
    (da_alloc (α := Nat) true (fun _ => 0) 0 4).map Darray.capacity =
      some 10 := by decide

example :
    (da_alloc (α := Nat) true (fun _ => 0) 100 4).map Darray.capacity =
      some 130 := by decide

end DarrayModel
